import Mathlib

/-!
Verification development for a 12x12 Gomoku (five-in-a-row) engine.

The embedding below is a shallow model of the C++ sources:
  * `Board` (bitboards split in three 64-bit chunks, incremental Zobrist
    hash, side to move) and its operations, from `board.cpp`;
  * `ThreatSolver` from `threat_solver.cpp` / `threat_solver.h`;
  * `HistoryHeuristic` from `history_heuristic.cpp`;
  * `SearchEngine` (static evaluation, move ordering, alpha-beta with
    transposition table, killer moves, iterative deepening) from
    `search.cpp` / `search.h`.

Modelling choices:
  * C++ `int` is modelled by `Int` (the engine's scores and coordinates
    stay far from 32-bit wrap on the inputs the claims quantify over, and
    signed overflow would be undefined behaviour in the source anyway);
    the sentinels `INT_MIN`/`INT_MAX` are the literal two's-complement
    bounds, used only in comparisons, as in the source.
  * The Zobrist tables are filled by the source from a fixed-seed
    `mt19937_64`; the model abstracts them as an arbitrary `Zobrist`
    value, so every theorem below holds for the concrete table as well.
  * Wall-clock time is modelled by a poll counter: each call of the
    source's `timeUp()` reads a boolean `clk` at the current poll index
    and advances the index.  A deadline `d` corresponds to
    `clk = fun n => decide (d <= n)`: once expired, always expired, which
    is exactly the behaviour of the source's monotone deadline check.
  * `std::sort` (whose order on tied keys is unspecified) is modelled by
    `List.insertionSort` with the same strict-descending key comparison.
  * `std::unordered_map` iteration order is unspecified in C++; the
    `bestSeverity` map of the threat solver is modelled by an association
    list with in-place update, and the transposition table by a function
    `Nat -> Option TTEntry` updated pointwise.
-/

namespace Gomoku

/-- The two players, as in `enum class Player` (Black = 0, White = 1). -/
inductive Player where
  | Black : Player
  | White : Player
deriving DecidableEq, Repr

/-- `static_cast<int>(player)`, the bitboard / Zobrist index. -/
def Player.toIdx : Player → Nat
  | .Black => 0
  | .White => 1

/-- The opponent of a player; the source writes this out as a conditional
`(p == Player::Black ? Player::White : Player::Black)` at each use site. -/
def Player.flip : Player → Player
  | .Black => .White
  | .White => .Black

/-- A move: an `(x, y)` coordinate pair of C++ `int`s.  The invalid-move
sentinel is `(-1, -1)`. -/
structure Move where
  x : Int
  y : Int
deriving DecidableEq, Repr

/-- One player's stone set, split into three 64-bit chunks, as
`uint64_t bb[2][3]` in the source (this structure is one row `bb[p]`). -/
structure Bitboards where
  c0 : Nat
  c1 : Nat
  c2 : Nat
deriving DecidableEq, Repr

/-- Read chunk `c` (the source indexes `bb[p][c]` with `c = idx >> 6`). -/
def Bitboards.get (bb : Bitboards) (c : Nat) : Nat :=
  match c with
  | 0 => bb.c0
  | 1 => bb.c1
  | _ => bb.c2

/-- Write chunk `c`. -/
def Bitboards.set (bb : Bitboards) (c : Nat) (v : Nat) : Bitboards :=
  match c with
  | 0 => { bb with c0 := v }
  | 1 => { bb with c1 := v }
  | _ => { bb with c2 := v }

/-- The Zobrist key material.  The source fills `zobristTable[12][12][2]`
and `zobristSide` from a fixed-seed `std::mt19937_64` in
`Board::initZobrist`; the model abstracts the concrete 64-bit values, so
all theorems hold for the actual table.  `table x y p` is
`zobristTable[x][y][p]`. -/
structure Zobrist where
  table : Nat → Nat → Nat → Nat
  side : Nat

/-- The board: two per-player chunked bitboards, the incremental Zobrist
hash and the side to move, as in `class Board`. -/
structure Board where
  black : Bitboards
  white : Bitboards
  hashKey : Nat
  side_to_move : Player
deriving DecidableEq, Repr

/-- `bb[p]` of the source. -/
def Board.bbOf (b : Board) : Player → Bitboards
  | .Black => b.black
  | .White => b.white

/-- Replace `bb[p]`. -/
def Board.setBB (b : Board) (p : Player) (v : Bitboards) : Board :=
  match p with
  | .Black => { b with black := v }
  | .White => { b with white := v }

/-- `index(x, y) = y * 12 + x`, evaluated after the range checks, hence on
a nonnegative value. -/
def cellIndex (x y : Int) : Nat := (y * 12 + x).toNat

/-- `chunkOf(idx) = idx >> 6`. -/
def chunkOf (i : Nat) : Nat := i >>> 6

/-- `offsetOf(idx) = idx & 63`. -/
def offsetOf (i : Nat) : Nat := i &&& 63

/-- The range test `0 <= x < 12 && 0 <= y < 12` shared by the board
operations. -/
def inRange (x y : Int) : Bool :=
  decide (0 ≤ x) && decide (x < 12) && decide (0 ≤ y) && decide (y < 12)

/-- All 144 cells in row-major order, the iteration order of every
`for (y) for (x)` double loop in the source. -/
def allCells : List (Int × Int) :=
  (List.range 12).flatMap fun (y : Nat) => (List.range 12).map fun (x : Nat) => ((x : Int), (y : Int))

/-- The 64-bit all-ones mask; `~mask` on a `uint64_t` is `mask ^^^ uint64Max`. -/
def uint64Max : Nat := 2 ^ 64 - 1

/-- `Board::isOccupied`: off-board coordinates count as occupied; otherwise
test the bit of either player at the cell. -/
def Board.isOccupied (b : Board) (x y : Int) : Bool :=
  if inRange x y = false then true
  else
    let i := cellIndex x y
    let c := chunkOf i
    let off := offsetOf i
    let mask := 1 <<< off
    decide ((((b.bbOf .Black).get c ||| (b.bbOf .White).get c) &&& mask) ≠ 0)

/-- `Board::getCellState`: `-1` off board, `1` black stone, `2` white
stone, `0` empty. -/
def Board.getCellState (b : Board) (x y : Int) : Int :=
  if inRange x y = false then -1
  else
    let i := cellIndex x y
    let c := chunkOf i
    let off := offsetOf i
    let mask := 1 <<< off
    if ((b.bbOf .Black).get c &&& mask) ≠ 0 then 1
    else if ((b.bbOf .White).get c &&& mask) ≠ 0 then 2
    else 0

/-- `Board::makeMove`: reject off-board or occupied cells without mutating;
otherwise set the mover's bit, xor the cell key and the side key into the
hash, and flip the side to move.  Returns the C++ `bool` with the updated
board. -/
def Board.makeMove (Z : Zobrist) (b : Board) (x y : Int) : Bool × Board :=
  if inRange x y = false then (false, b)
  else if b.isOccupied x y then (false, b)
  else
    let i := cellIndex x y
    let c := chunkOf i
    let off := offsetOf i
    let p := b.side_to_move
    let bb := (b.bbOf p).set c ((b.bbOf p).get c ||| (1 <<< off))
    let b := b.setBB p bb
    let b := { b with hashKey := b.hashKey ^^^ Z.table x.toNat y.toNat p.toIdx }
    let b := { b with side_to_move := b.side_to_move.flip,
                      hashKey := b.hashKey ^^^ Z.side }
    (true, b)

/-- `Board::unmakeMove`: toggle the side back, xor the side key, clear the
(now to-move) player's bit at the cell and xor its cell key out of the
hash.  No validation, exactly as in the source. -/
def Board.unmakeMove (Z : Zobrist) (b : Board) (x y : Int) : Bool × Board :=
  let b := { b with side_to_move := b.side_to_move.flip,
                    hashKey := b.hashKey ^^^ Z.side }
  let i := cellIndex x y
  let c := chunkOf i
  let off := offsetOf i
  let mask := 1 <<< off
  let p := b.side_to_move
  let bb := (b.bbOf p).set c ((b.bbOf p).get c &&& (uint64Max ^^^ mask))
  let b := b.setBB p bb
  let b := { b with hashKey := b.hashKey ^^^ Z.table x.toNat y.toNat p.toIdx }
  (true, b)

/-- The stone test `bb[p][c] & (1 << off)` done inline by `checkWin`,
guarded by the range check of the surrounding loop. -/
def Board.stoneAt (b : Board) (p : Player) (x y : Int) : Bool :=
  if inRange x y = false then false
  else
    let i := cellIndex x y
    decide (((b.bbOf p).get (chunkOf i) &&& (1 <<< offsetOf i)) ≠ 0)

/-- The four scan directions of `checkWin` / `isWinningMove`: horizontal,
vertical, and the two diagonals. -/
def dirs : List (Int × Int) := [(1, 0), (0, 1), (1, 1), (1, -1)]

/-- One `while` walk of `checkWin`: count consecutive cells from `(x, y)`
in direction `(dx, dy)` that are on board and satisfy `good`.  The board
is 12 wide, so 12 steps of fuel always suffice; the callers pass 12. -/
def walkCount (good : Int → Int → Bool) (x y dx dy : Int) : Nat → Nat
  | 0 => 0
  | fuel + 1 =>
    if inRange x y && good x y then walkCount good (x + dx) (y + dy) dx dy fuel + 1
    else 0

/-- `Board::checkWin`: scan every stone of the player; for each of the four
directions sum the contiguous extensions forward and backward and test for
a total of at least five. -/
def Board.checkWin (b : Board) (p : Player) : Bool :=
  allCells.any fun c =>
    b.stoneAt p c.1 c.2 &&
      dirs.any fun d =>
        let fwd := walkCount (fun u v => b.stoneAt p u v) (c.1 + d.1) (c.2 + d.2) d.1 d.2 12
        let bwd := walkCount (fun u v => b.stoneAt p u v) (c.1 - d.1) (c.2 - d.2) (-d.1) (-d.2) 12
        decide (5 ≤ 1 + fwd + bwd)

/-- `Board::getLegalMoves`: all empty cells in row-major order. -/
def Board.getLegalMoves (b : Board) : List Move :=
  (allCells.filter fun c => !b.isOccupied c.1 c.2).map fun c => ⟨c.1, c.2⟩

/-- The closed integer interval `[lo, hi]` as a list, the iteration range
of the bounding-box loops. -/
def intRange (lo hi : Int) : List Int :=
  (List.range (hi + 1 - lo).toNat).map fun (i : Nat) => lo + (i : Int)

/-- `Board::getCandidateMoves`: bounding box of all stones expanded by a
2-cell margin clamped to the board, keeping empty cells adjacent to a
stone; the single centre cell `(5,5)` when the board is empty; all legal
moves when the filter leaves nothing. -/
def Board.getCandidateMoves (b : Board) : List Move :=
  let box := allCells.foldl
    (fun (st : Bool × Int × Int × Int × Int) c =>
      let (found, min_x, max_x, min_y, max_y) := st
      if b.isOccupied c.1 c.2 then
        (true, min min_x c.1, max max_x c.1, min min_y c.2, max max_y c.2)
      else st)
    (false, 12, -1, 12, -1)
  let (found, min_x, max_x, min_y, max_y) := box
  if found = false then [⟨5, 5⟩]
  else
    let min_x := max 0 (min_x - 2)
    let min_y := max 0 (min_y - 2)
    let max_x := min 11 (max_x + 2)
    let max_y := min 11 (max_y + 2)
    let moves := (intRange min_y max_y).flatMap fun y =>
      (intRange min_x max_x).filterMap fun x =>
        if b.isOccupied x y then none
        else
          let neighbor := (intRange (-1) 1).any fun dy =>
            (intRange (-1) 1).any fun dx =>
              if dx = 0 && dy = 0 then false
              else
                let nx := x + dx
                let ny := y + dy
                inRange nx ny && b.isOccupied nx ny
          if neighbor then some ⟨x, y⟩ else none
    if moves.isEmpty then b.getLegalMoves else moves

/-- Kernighan popcount with explicit fuel (a 64-bit chunk has at most 64
set bits, so fuel 64 is exact), as in `Board::countStones`. -/
def popcount64 : Nat → Nat → Nat
  | 0, _ => 0
  | fuel + 1, v => if v = 0 then 0 else popcount64 fuel (v &&& (v - 1)) + 1

/-- `Board::countStones`: sum the popcounts of the player's three chunks. -/
def Board.countStones (b : Board) (p : Player) : Nat :=
  popcount64 64 ((b.bbOf p).get 0) + popcount64 64 ((b.bbOf p).get 1) +
    popcount64 64 ((b.bbOf p).get 2)

/-- The fixed starting position built by the `Board` constructor: white at
(6,6) and (5,5), black at (6,5) and (5,6), Black to move, hash xored over
the four placed stones. -/
def initialBoard (Z : Zobrist) : Board :=
  let place (bb : Bitboards) (x y : Int) : Bitboards :=
    let i := cellIndex x y
    bb.set (chunkOf i) (bb.get (chunkOf i) ||| (1 <<< offsetOf i))
  let white := place (place ⟨0, 0, 0⟩ 6 6) 5 5
  let black := place (place ⟨0, 0, 0⟩ 6 5) 5 6
  { black := black, white := white,
    hashKey := 0 ^^^ Z.table 6 6 1 ^^^ Z.table 5 5 1 ^^^ Z.table 6 5 0 ^^^ Z.table 5 6 0,
    side_to_move := .Black }

/-! ## ThreatSolver (`threat_solver.cpp`) -/

/-- `coordKey(x, y) = y * 12 + x`, the map key for board cells. -/
def coordKey (x y : Int) : Nat := (y * 12 + x).toNat

/-- Severity constants of `ThreatSolver::processLine`. -/
def OPEN_FOUR : Int := 1000000
def SIMPLE_FOUR : Int := 500000
def OPEN_THREE : Int := 120000
def BROKEN_THREE : Int := 60000

/-- A scan line: start cell, direction, length (`ThreatSolver::LineContext`). -/
structure LineContext where
  xStart : Int
  yStart : Int
  dx : Int
  dy : Int
  length : Nat
deriving Repr

/-- `ThreatSolver::buildGrid`: 1 for the attacker (opponent of `defender`),
-1 for the defender, 0 otherwise, read through `getCellState`. -/
def buildGrid (b : Board) (defender : Player) : Int → Int → Int := fun x y =>
  let attacker := defender.flip
  let state := b.getCellState x y
  if (state = 1 && attacker = .Black) || (state = 2 && attacker = .White) then 1
  else if (state = 1 && defender = .Black) || (state = 2 && defender = .White) then -1
  else 0

/-- The severity map `bestSeverity`, an association list from `coordKey`
to the best severity so far (`std::unordered_map<int,int>`; C++ leaves the
iteration order unspecified, the model uses insertion order). -/
abbrev SevMap := List (Nat × Int)

/-- Map lookup. -/
def sevLookup (k : Nat) : SevMap → Option Int
  | [] => none
  | (k', v) :: rest => if k' = k then some v else sevLookup k rest

/-- Map write (in-place update, insert at the end when absent). -/
def sevSet (k : Nat) (v : Int) : SevMap → SevMap
  | [] => [(k, v)]
  | (k', v') :: rest => if k' = k then (k, v) :: rest else (k', v') :: sevSet k v rest

/-- `ThreatSolver::addMoveIfStronger`: drop off-board cells; otherwise keep
the maximum severity seen for the cell. -/
def addMoveIfStronger (x y : Int) (severity : Int) (m : SevMap) : SevMap :=
  if inRange x y = false then m
  else
    let key := coordKey x y
    match sevLookup key m with
    | none => sevSet key severity m
    | some v => if v < severity then sevSet key severity m else m

/-- The cell of line `ctx` at `offset` (`cellAt` in `processLine`). -/
def LineContext.cellXY (ctx : LineContext) (offset : Nat) : Int × Int :=
  (ctx.xStart + (offset : Int) * ctx.dx, ctx.yStart + (offset : Int) * ctx.dy)

/-- Classify the length-5 window of `ctx` starting at offset `i` and list
the (cell, severity) nominations it produces, exactly as the window body
of `ThreatSolver::processLine`: windows holding a defender stone produce
nothing; 4 attacker stones + 1 empty nominate the lone empty at
`OPEN_FOUR` when both cells just outside the window are in the line and
empty, else `SIMPLE_FOUR`; 3 attacker stones + 2 empties nominate both
empties at `OPEN_THREE` (both ends open) or `BROKEN_THREE` (one end
open), and nothing when both ends are closed. -/
def windowNoms (grid : Int → Int → Int) (ctx : LineContext) (i : Nat) :
    List ((Int × Int) × Int) :=
  let cellAt := fun (o : Nat) => let c := ctx.cellXY o; grid c.1 c.2
  let vals := (List.range 5).map fun j => cellAt (i + j)
  let defenderStones := (vals.filter fun v => v = -1).length
  let attackerStones := (vals.filter fun v => v = 1).length
  let emptyOffsets := (List.range 5).filter fun j => cellAt (i + j) = 0
  if defenderStones ≠ 0 then []
  else
    let leftOpen := decide (1 ≤ i) && decide (cellAt (i - 1) = 0)
    let rightOpen := decide (i + 5 < ctx.length) && decide (cellAt (i + 5) = 0)
    if attackerStones = 4 && emptyOffsets.length = 1 then
      let offset := emptyOffsets.headD 0
      let severity := if leftOpen && rightOpen then OPEN_FOUR else SIMPLE_FOUR
      [(ctx.cellXY (i + offset), severity)]
    else if attackerStones = 3 && emptyOffsets.length = 2 then
      if leftOpen && rightOpen then
        emptyOffsets.map fun o => (ctx.cellXY (i + o), OPEN_THREE)
      else if leftOpen || rightOpen then
        emptyOffsets.map fun o => (ctx.cellXY (i + o), BROKEN_THREE)
      else []
    else []

/-- `ThreatSolver::processLine`: slide the length-5 window over the line,
feeding every nomination to `addMoveIfStronger` in order. -/
def processLine (grid : Int → Int → Int) (ctx : LineContext) (m : SevMap) : SevMap :=
  (List.range (ctx.length + 1 - 5)).foldl
    (fun m i => (windowNoms grid ctx i).foldl
      (fun m n => addMoveIfStronger n.1.1 n.1.2 n.2 m) m) m

/-- The scan lines of `ThreatSolver::findBlockingMoves`: the 12 rows, the
12 columns, the diagonals indexed by `k = x - y` from -11 to 11, and the
anti-diagonals indexed by `s = x + y` from 0 to 22. -/
def threatLineCtxs : List LineContext :=
  ((List.range 12).map fun (y : Nat) => LineContext.mk 0 (y : Int) 1 0 12) ++
  ((List.range 12).map fun (x : Nat) => LineContext.mk (x : Int) 0 0 1 12) ++
  ((intRange (-11) 11).map fun k =>
    let xStart := max 0 k
    let yStart := max 0 (-k)
    let len := min (12 - xStart) (12 - yStart)
    LineContext.mk xStart yStart 1 1 len.toNat) ++
  ((intRange 0 22).map fun s =>
    let xStart := max 0 (s - 11)
    let yStart := min 11 s
    let len := min (yStart + 1) (12 - xStart)
    LineContext.mk xStart yStart 1 (-1) len.toNat)

/-- A blocking suggestion: a move plus its severity
(`ThreatSolver::ThreatMove`). -/
structure ThreatMove where
  move : Move
  severity : Int
deriving DecidableEq, Repr

/-- `ThreatSolver::findBlockingMoves`: build the attacker/defender grid,
process every line into the severity map, convert the map entries back to
moves and sort them by strictly descending severity. -/
def findBlockingMoves (b : Board) (defender : Player) : List ThreatMove :=
  let grid := buildGrid b defender
  let bestSeverity := threatLineCtxs.foldl (fun m ctx => processLine grid ctx m) []
  let result := bestSeverity.map fun e => ThreatMove.mk ⟨(e.1 % 12 : Nat), (e.1 / 12 : Nat)⟩ e.2
  (result.insertionSort fun a b => b.severity ≤ a.severity)

/-! ## HistoryHeuristic (`history_heuristic.cpp`) -/

/-- The per-coordinate history table, `int table[12][12]` indexed
`[x][y]`. -/
def HistTable := Int → Int → Int

/-- `HistoryHeuristic::reset`. -/
def histReset : HistTable := fun _ _ => 0

/-- `HistoryHeuristic::increment`: add `depth * depth` at the coordinate
when it is on the board, otherwise do nothing. -/
def histIncrement (m : Move) (depth : Nat) (t : HistTable) : HistTable :=
  if inRange m.x m.y then
    fun x y => if x = m.x && y = m.y then t m.x m.y + (depth * depth : Nat) else t x y
  else t

/-- `HistoryHeuristic::get`: the stored score, 0 off the board. -/
def histGet (m : Move) (t : HistTable) : Int :=
  if inRange m.x m.y then t m.x m.y else 0

/-! ## SearchEngine: static evaluation (`search.cpp`) -/

/-- `SearchEngine::patternScore`: the threat-weight table on
(run length, open ends). -/
def patternScore (count : Nat) (leftOpen rightOpen : Bool) : Int :=
  if 5 ≤ count then 100000000
  else if count = 4 then
    if leftOpen && rightOpen then 10000000
    else if leftOpen || rightOpen then 1000000 else 0
  else if count = 3 then
    if leftOpen && rightOpen then 100000
    else if leftOpen || rightOpen then 10000 else 0
  else if count = 2 then
    if leftOpen && rightOpen then 1000
    else if leftOpen || rightOpen then 100 else 0
  else 0

/-- The grid of `SearchEngine::evaluatePlayer`: +1 for the evaluated
player's stones, -1 for the opponent's, 0 for empty, read through
`getCellState`. -/
def evalGrid (b : Board) (player : Player) : Int → Int → Int := fun x y =>
  let state := b.getCellState x y
  if state = 0 then 0
  else if (state = 1 && player = .Black) || (state = 2 && player = .White) then 1
  else -1

/-- Maximal runs of value 1 along a line given as a value list: returns
`(start, length)` pairs in scan order (the `while` loops of
`evaluatePlayer`). -/
def runsGo : List Int → Nat → Option (Nat × Nat) → List (Nat × Nat)
  | [], _, none => []
  | [], _, some run => [run]
  | v :: rest, i, none =>
    if v = 1 then runsGo rest (i + 1) (some (i, 1)) else runsGo rest (i + 1) none
  | v :: rest, i, some run =>
    if v = 1 then runsGo rest (i + 1) (some (run.1, run.2 + 1))
    else run :: runsGo rest (i + 1) none

/-- The runs of value 1 of line `ctx` over `grid`. -/
def lineRuns (grid : Int → Int → Int) (ctx : LineContext) : List (Nat × Nat) :=
  runsGo ((List.range ctx.length).map fun o => let c := ctx.cellXY o; grid c.1 c.2) 0 none

/-- The aggregate of `evaluatePlayer`: total pattern score, longest run
with its open-end count (ties prefer more open ends), and the
open-four flag (`EvalResult` of `search.h`). -/
structure EvalResult where
  patternScore : Int
  longestRun : Nat
  longestOpenEnds : Nat
  hasOpenFourDouble : Bool

/-- Fold one run into the aggregate, exactly as the repeated block of
`evaluatePlayer`: add `patternScore`, update the longest-run tracker, set
the open-four flag on a both-ends-open four. -/
def foldRun (grid : Int → Int → Int) (ctx : LineContext) (acc : EvalResult)
    (run : Nat × Nat) : EvalResult :=
  let (start, count) := run
  let cellAt := fun (o : Nat) => let c := ctx.cellXY o; grid c.1 c.2
  let leftOpen := decide (1 ≤ start) && decide (cellAt (start - 1) = 0)
  let rightOpen := decide (start + count < ctx.length) && decide (cellAt (start + count) = 0)
  let openEnds := (if leftOpen then 1 else 0) + (if rightOpen then 1 else 0)
  let acc := { acc with patternScore := acc.patternScore + patternScore count leftOpen rightOpen }
  let acc :=
    if acc.longestRun < count ∨ (count = acc.longestRun ∧ acc.longestOpenEnds < openEnds) then
      { acc with longestRun := count, longestOpenEnds := openEnds }
    else acc
  if count = 4 && leftOpen && rightOpen then { acc with hasOpenFourDouble := true } else acc

/-- `SearchEngine::evaluatePlayer`: scan the rows, columns, diagonals and
anti-diagonals (the same line geometry as the threat solver) and fold
every maximal run into the aggregate. -/
def evaluatePlayer (b : Board) (player : Player) : EvalResult :=
  let grid := evalGrid b player
  threatLineCtxs.foldl
    (fun acc ctx => (lineRuns grid ctx).foldl (foldRun grid ctx) acc)
    ⟨0, 0, 0, false⟩

/-- The cubic shape bonus `longestBias` of `SearchEngine::evaluate`. -/
def longestBias (r : EvalResult) : Int :=
  (r.longestRun * r.longestRun * r.longestRun * 500 : Nat) + (r.longestOpenEnds * 20000 : Nat)

/-- `SearchEngine::evaluate`: double-open-four override, else pattern-score
difference plus shape-bonus difference, from `myColor`'s perspective. -/
def evaluate (b : Board) (myColor : Player) : Int :=
  let opponent := myColor.flip
  let myEval := evaluatePlayer b myColor
  let oppEval := evaluatePlayer b opponent
  if myEval.hasOpenFourDouble && !oppEval.hasOpenFourDouble then 90000000
  else if oppEval.hasOpenFourDouble && !myEval.hasOpenFourDouble then -90000000
  else
    (myEval.patternScore - oppEval.patternScore) +
      (longestBias myEval - longestBias oppEval)

/-- `SearchEngine::isWinningMove`: would placing `player`'s stone at the
empty cell `(x, y)` complete five in a row?  Walks the four directions
over the player's existing stones around the hypothetical stone. -/
def isWinningMove (b : Board) (player : Player) (x y : Int) : Bool :=
  if b.isOccupied x y then false
  else
    let cellIs := fun (cx cy : Int) =>
      let state := b.getCellState cx cy
      if state = 0 then false
      else decide ((if state = 1 then Player.Black else Player.White) = player)
    dirs.any fun d =>
      let fwd := walkCount cellIs (x + d.1) (y + d.2) d.1 d.2 12
      let bwd := walkCount cellIs (x - d.1) (y - d.2) (-d.1) (-d.2) 12
      decide (5 ≤ 1 + fwd + bwd)

/-! ## SearchEngine: search state (`search.h`) -/

/-- A transposition-table entry: search depth, score, bound flag
(0 exact, 1 lower, 2 upper) and best move (`SearchEngine::TTEntry`). -/
structure TTEntry where
  depth : Nat
  score : Int
  flag : Nat
  bestMove : Move

/-- `MAX_PLY` of `search.h`. -/
def MAX_PLY : Nat := 64

/-- `INT_MIN` / `INT_MAX`, used by the source only as comparison
sentinels. -/
def INT_MIN : Int := -2147483648
def INT_MAX : Int := 2147483647

/-- The mutable search state owned by one `findBestMove` call: the
transposition table keyed by hash, the two killer slots per ply, the
history table, `maxDepthReached`, and the poll counter of the time
model. -/
structure Eng where
  transTable : Nat → Option TTEntry
  killers : Nat → Move × Move
  hist : HistTable
  maxDepthReached : Nat
  polls : Nat

/-- One `timeUp()` call: read the clock at the current poll index and
advance the index. -/
def pollTime (clk : Nat → Bool) (s : Eng) : Bool × Eng :=
  (clk s.polls, { s with polls := s.polls + 1 })

/-- The fresh state built at the top of `findBestMove`: cleared
transposition table, reset history, killers set to `(-1,-1)`. -/
def freshEng : Eng :=
  { transTable := fun _ => none,
    killers := fun _ => (⟨-1, -1⟩, ⟨-1, -1⟩),
    hist := histReset,
    maxDepthReached := 0,
    polls := 0 }

/-- Record a cutoff move: shift the killers at `ply` unless the move is
already the first killer (guarded by `ply < MAX_PLY`), and bump the history
table by `depth * depth`. -/
def recordCutoff (m : Move) (depth ply : Nat) (s : Eng) : Eng :=
  let s :=
    if ply < MAX_PLY then
      if (s.killers ply).1 = m then s
      else { s with killers := fun p => if p = ply then (m, (s.killers ply).1) else s.killers p }
    else s
  { s with hist := histIncrement m depth s.hist }

/-! ## SearchEngine: move ordering (`SearchEngine::orderMoves`) -/

/-- `SearchEngine::orderMoves`: score every candidate move by tentatively
applying it (immediate-win bonus, losing-reply penalty, else static
evaluation), centrality, threat-solver severity, killer bonuses and the
history table, then sort descending.  The board is threaded through the
apply/undo pairs and returned.  The loop body is `orderStep`. -/
def orderStep (Z : Zobrist) (currentPlayer opponent myColor : Player) (ply : Nat)
    (s : Eng) (defensiveLookup : SevMap) :
    List (Int × Move) × Board → Move → List (Int × Move) × Board :=
  fun st m =>
    let (scored, b) := st
    let (_, b1) := b.makeMove Z m.x m.y
    let winForCurrent := b1.checkWin currentPlayer
    let oppCandidates := b1.getCandidateMoves
    let winForOpp := oppCandidates.any fun om => isWinningMove b1 opponent om.x om.y
    let evalScore := evaluate b1 myColor
    let (_, b2) := b1.unmakeMove Z m.x m.y
    let score :=
      if winForCurrent then (100000000 : Int)
      else if winForOpp then -10000000
      else evalScore
    let dx := m.x - 5
    let dy := m.y - 5
    let score := score - (dx * dx + dy * dy)
    let score :=
      match sevLookup (coordKey m.x m.y) defensiveLookup with
      | some sev => score + sev
      | none => score
    let score :=
      if ply < MAX_PLY then
        if (s.killers ply).1 = m then score + 1000000
        else if (s.killers ply).2 = m then score + 500000
        else score
      else score
    let score := score + histGet m s.hist
    (scored ++ [(score, m)], b2)

/-- The `defensiveLookup` map built at the top of `orderMoves`. -/
def defensiveLookupOf (b : Board) (currentPlayer : Player) : SevMap :=
  (findBlockingMoves b currentPlayer).foldl
    (fun (acc : SevMap) t =>
      let key := coordKey t.move.x t.move.y
      match sevLookup key acc with
      | none => sevSet key t.severity acc
      | some v => if v < t.severity then sevSet key t.severity acc else acc)
    []

def orderMoves (Z : Zobrist) (b : Board) (currentPlayer myColor : Player) (ply : Nat)
    (s : Eng) : List Move × Board :=
  let moves := b.getCandidateMoves
  let opponent := currentPlayer.flip
  let defensiveLookup := defensiveLookupOf b currentPlayer
  let (scored, b) :=
    moves.foldl (orderStep Z currentPlayer opponent myColor ply s defensiveLookup) ([], b)
  ((scored.insertionSort fun a b => b.1 ≤ a.1).map (·.2), b)

/-! ## SearchEngine: alpha-beta (`SearchEngine::alphaBeta`) -/

/-- The transposition-table probe of `alphaBeta` (source lines 355-375):
an entry is consulted only when stored at depth at least the current one;
an exact entry cuts off with its score; a lower bound raises `alpha` when
stronger, an upper bound lowers `beta` when stronger, and a degenerate
window after tightening cuts off with the stored score.  Returns the
optional cutoff score and the (possibly tightened) window. -/
def ttProbe (depth : Nat) (alpha beta : Int) :
    Option TTEntry → Option Int × Int × Int
  | none => (none, alpha, beta)
  | some e =>
    if depth ≤ e.depth then
      if e.flag = 0 then (some e.score, alpha, beta)
      else
        let alpha := if e.flag = 1 ∧ alpha < e.score then e.score else alpha
        let beta := if e.flag = 2 ∧ e.score < beta then e.score else beta
        if beta ≤ alpha then (some e.score, alpha, beta) else (none, alpha, beta)
    else (none, alpha, beta)

/-- The bound-flag classification of the store step (source lines 453-464):
value at or below the pre-loop alpha is an upper bound (2), at or above
the pre-loop beta a lower bound (1), exact (0) otherwise. -/
def ttFlagOf (bestValue alphaOrig betaOrig : Int) : Nat :=
  if bestValue ≤ alphaOrig then 2
  else if betaOrig ≤ bestValue then 1
  else 0

/-- Outcome of one alpha-beta move loop: the mid-loop time-expiry `return 0`
(which skips the store), or the loop's best value and move. -/
inductive LoopOut where
  | timeout0 : LoopOut
  | fin : Int → Move → LoopOut

/-- The maximizing move loop of `alphaBeta` (`currentPlayer == myColor`):
poll before each move; apply the move, recurse through `rec` with the
current window, undo; poll again and produce the store-skipping
`return 0` on expiry; then raise the best value and `alpha`, and on
`alpha >= beta` record the killer/history cutoff and stop. -/
def abLoopMax (Z : Zobrist) (clk : Nat → Bool)
    (rec : Board → Int → Int → Eng → Int × Board × Eng) (depth ply : Nat) :
    List Move → Int → Move → Int → Int → Board → Eng → LoopOut × Board × Eng
  | [], bestValue, bestMove, _, _, b, s => (.fin bestValue bestMove, b, s)
  | m :: rest, bestValue, bestMove, alpha, beta, b, s =>
    let (t, s) := pollTime clk s
    if t then (.fin bestValue bestMove, b, s)
    else
      let (_, b1) := b.makeMove Z m.x m.y
      let (val, b2, s) := rec b1 alpha beta s
      let (_, b3) := b2.unmakeMove Z m.x m.y
      let (t2, s) := pollTime clk s
      if t2 then (.timeout0, b3, s)
      else
        let (bestValue, bestMove) :=
          if bestValue < val then (val, m) else (bestValue, bestMove)
        let alpha := if alpha < bestValue then bestValue else alpha
        if beta ≤ alpha then (.fin bestValue bestMove, b3, recordCutoff m depth ply s)
        else abLoopMax Z clk rec depth ply rest bestValue bestMove alpha beta b3 s

/-- The minimizing move loop of `alphaBeta` (`currentPlayer != myColor`),
symmetric to `abLoopMax`: lower the best value and `beta`, cut off on
`alpha >= beta`. -/
def abLoopMin (Z : Zobrist) (clk : Nat → Bool)
    (rec : Board → Int → Int → Eng → Int × Board × Eng) (depth ply : Nat) :
    List Move → Int → Move → Int → Int → Board → Eng → LoopOut × Board × Eng
  | [], bestValue, bestMove, _, _, b, s => (.fin bestValue bestMove, b, s)
  | m :: rest, bestValue, bestMove, alpha, beta, b, s =>
    let (t, s) := pollTime clk s
    if t then (.fin bestValue bestMove, b, s)
    else
      let (_, b1) := b.makeMove Z m.x m.y
      let (val, b2, s) := rec b1 alpha beta s
      let (_, b3) := b2.unmakeMove Z m.x m.y
      let (t2, s) := pollTime clk s
      if t2 then (.timeout0, b3, s)
      else
        let (bestValue, bestMove) :=
          if val < bestValue then (val, m) else (bestValue, bestMove)
        let beta := if bestValue < beta then bestValue else beta
        if beta ≤ alpha then (.fin bestValue bestMove, b3, recordCutoff m depth ply s)
        else abLoopMin Z clk rec depth ply rest bestValue bestMove alpha beta b3 s

/-- The store step closing `alphaBeta` (source lines 453-471): the
mid-loop time expiry returns 0 and skips the store; otherwise the best
value is stored at the node key with the flag classified against the
pre-loop window, overwriting any previous entry for that key. -/
def abStore (key : Nat) (depth : Nat) (alphaOrig betaOrig : Int) :
    LoopOut × Board × Eng → Int × Board × Eng
  | (.timeout0, b, s) => (0, b, s)
  | (.fin bestValue bestMove, b, s) =>
    let entry : TTEntry :=
      ⟨depth, bestValue, ttFlagOf bestValue alphaOrig betaOrig, bestMove⟩
    let s := { s with transTable :=
      fun k => if k = key then some entry else s.transTable k }
    (bestValue, b, s)

/-- `SearchEngine::alphaBeta`: poll and return 0 on expiry; terminal win
checks with the shallow-win tie-break; static evaluation at depth 0;
transposition probe; candidate generation (static evaluation when empty);
ordering; the max/min move loop; and the transposition store classified
against the pre-loop window.  Returns the score with the threaded board
and state. -/
def alphaBeta (Z : Zobrist) (clk : Nat → Bool) :
    Nat → Board → Int → Int → Player → Player → Nat → Eng → Int × Board × Eng
  | depth, b, alpha, beta, currentPlayer, myColor, ply, s =>
    let (t, s) := pollTime clk s
    if t then (0, b, s)
    else if b.checkWin myColor then
      (100000000 - ((s.maxDepthReached : Int) - (depth : Int)), b, s)
    else if b.checkWin myColor.flip then
      (-100000000 + ((s.maxDepthReached : Int) - (depth : Int)), b, s)
    else
      match depth with
      | 0 => (evaluate b myColor, b, s)
      | d + 1 =>
        let key := b.hashKey
        let (cut, alphaOrig, betaOrig) := ttProbe (d + 1) alpha beta (s.transTable key)
        match cut with
        | some score => (score, b, s)
        | none =>
          let candidateMoves := b.getCandidateMoves
          if candidateMoves.isEmpty then (evaluate b myColor, b, s)
          else
            let (ordered, b) := orderMoves Z b currentPlayer myColor ply s
            let rec' := fun b' a' b'' s' =>
              alphaBeta Z clk d b' a' b'' currentPlayer.flip myColor (ply + 1) s'
            let (out, b, s) :=
              if currentPlayer = myColor then
                abLoopMax Z clk rec' (d + 1) ply ordered INT_MIN ⟨-1, -1⟩ alphaOrig betaOrig b s
              else
                abLoopMin Z clk rec' (d + 1) ply ordered INT_MAX ⟨-1, -1⟩ alphaOrig betaOrig b s
            abStore key (d + 1) alphaOrig betaOrig (out, b, s)

/-! ## SearchEngine: best-move driver (`SearchEngine::findBestMove`) -/

/-- `SearchEngine::getOpeningMove`: with exactly 4 stones on board and
Black (the engine's side) to move, the first unoccupied cell of the fixed
preference list; nothing otherwise. -/
def getOpeningMove (b : Board) (myColor : Player) : Option Move :=
  let total := b.countStones .Black + b.countStones .White
  if total = 4 ∧ b.side_to_move = myColor then
    if myColor = .Black then
      ([⟨7, 7⟩, ⟨7, 4⟩, ⟨4, 7⟩, ⟨4, 4⟩] : List Move).find? fun m => !b.isOccupied m.x m.y
    else none
  else none

/-- Outcome of one root-move sweep of the deepening loop: a certain-win
early return, or the sweep's best move and value (the sweep stops early,
keeping its current best, when a poll expires). -/
inductive SweepOut where
  | earlyWin : Move → SweepOut
  | swept : Move → Int → SweepOut

/-- One inner root loop of the deepening stage (source lines 554-574):
poll; apply the root move, search it with the full window at `depth - 1`,
undo; poll; return the move outright when its value exceeds 90,000,000;
otherwise keep the running best. -/
def rootSweep (Z : Zobrist) (clk : Nat → Bool) (depth : Nat) (myColor : Player) :
    List Move → Move → Int → Board → Eng → SweepOut × Board × Eng
  | [], curBest, curVal, b, s => (.swept curBest curVal, b, s)
  | m :: rest, curBest, curVal, b, s =>
    let (t, s) := pollTime clk s
    if t then (.swept curBest curVal, b, s)
    else
      let (_, b1) := b.makeMove Z m.x m.y
      let (val, b2, s) :=
        alphaBeta Z clk (depth - 1) b1 (INT_MIN + 1) (INT_MAX - 1) myColor.flip myColor 1 s
      let (_, b3) := b2.unmakeMove Z m.x m.y
      let (t2, s) := pollTime clk s
      if t2 then (.swept curBest curVal, b3, s)
      else if 90000000 < val then (.earlyWin m, b3, s)
      else if curVal < val then rootSweep Z clk depth myColor rest m val b3 s
      else rootSweep Z clk depth myColor rest curBest curVal b3 s

/-- The root re-scoring pass run after a completed depth (source lines
580-593): search every root move once more at the same depth and collect
`(value, move)` pairs. -/
def rescoreRoots (Z : Zobrist) (clk : Nat → Bool) (depth : Nat) (myColor : Player) :
    List Move → Board → Eng → List (Int × Move) × Board × Eng
  | [], b, s => ([], b, s)
  | m :: rest, b, s =>
    let (_, b1) := b.makeMove Z m.x m.y
    let (val, b2, s) :=
      alphaBeta Z clk (depth - 1) b1 (INT_MIN + 1) (INT_MAX - 1) myColor.flip myColor 1 s
    let (_, b3) := b2.unmakeMove Z m.x m.y
    let (scored, b4, s) := rescoreRoots Z clk depth myColor rest b3 s
    ((val, m) :: scored, b4, s)

/-- The iterative-deepening loop (source lines 549-602).  Each iteration:
poll (stop with the recorded best on expiry), record the depth in
`maxDepthReached`, sweep the root moves, propagate a certain-win early
return; if the post-sweep poll has not expired, record the sweep's best,
re-score and re-sort the root moves descending, and deepen.  The fuel
argument only bounds the number of iterations of the source's unbounded
`for` loop; `findBestMove` passes `deadline + 1`, which the strictly
increasing poll counter can never exhaust before the deadline check
stops the loop, and an exhausted-fuel exit returns the same recorded
best move as the deadline exit. -/
def idLoop (Z : Zobrist) (clk : Nat → Bool) (myColor : Player) :
    Nat → Nat → List Move → Move → Int → Board → Eng → Move × Board × Eng
  | 0, _, _, bestMove, _, b, s => (bestMove, b, s)
  | fuel + 1, depth, rootMoves, bestMove, bestVal, b, s =>
    let (t, s) := pollTime clk s
    if t then (bestMove, b, s)
    else
      let s := { s with maxDepthReached := depth }
      let currentBestMove := rootMoves.headD ⟨-1, -1⟩
      match rootSweep Z clk depth myColor rootMoves currentBestMove INT_MIN b s with
      | (.earlyWin m, b, s) => (m, b, s)
      | (.swept curBest curVal, b, s) =>
        let (t2, s) := pollTime clk s
        if t2 = false then
          let (scored, b, s) := rescoreRoots Z clk depth myColor rootMoves b s
          let sorted := scored.insertionSort fun a b => b.1 ≤ a.1
          idLoop Z clk myColor fuel (depth + 1) (sorted.map (·.2)) curBest curVal b s
        else (bestMove, b, s)

/-- The body of the forced-block loop of `findBestMove` (source lines
506-520): evaluate each blocking move by applying and undoing it, keeping
the block of highest static score. -/
def blockStep (Z : Zobrist) (myColor : Player) :
    Move × Int × Board → Move → Move × Int × Board :=
  fun st block =>
    let (bestBlock, bestScore, b) := st
    let (_, b1) := b.makeMove Z block.x block.y
    let score := evaluate b1 myColor
    let (_, b2) := b1.unmakeMove Z block.x block.y
    if bestScore < score then (block, score, b2) else (bestBlock, bestScore, b2)

/-- The urgent-defense shortcut of `findBestMove` (source lines 526-536):
the front of the threat solver's list when its severity is at least
500,000 (a four to block), nothing otherwise. -/
def urgentOf (b : Board) (myColor : Player) : Option Move :=
  match findBlockingMoves b myColor with
  | [] => none
  | front :: _ => if 500000 ≤ front.severity then some front.move else none

/-- `SearchEngine::findBestMove` under the poll-counter time model: the
time budget is a poll deadline, `timeUp()` becomes true from poll index
`deadline` on.  Opening book; immediate win over all legal moves; forced
block of the opponent's winning cells (choosing the block of highest
static evaluation); threat-solver urgent defense at severity at least
500,000; then ordered root moves ((-1,-1) when there are none) and the
iterative-deepening loop. -/
def findBestMove (Z : Zobrist) (b : Board) (myColor : Player) (deadline : Nat) :
    Move × Board × Eng :=
  let clk := fun n => decide (deadline ≤ n)
  let s := freshEng
  match getOpeningMove b myColor with
  | some bookMove => (bookMove, b, s)
  | none =>
    let legalMoves := b.getLegalMoves
    match legalMoves.find? fun m => isWinningMove b myColor m.x m.y with
    | some m => (m, b, s)
    | none =>
      let opponent := myColor.flip
      let opponentWins := legalMoves.filter fun m => isWinningMove b opponent m.x m.y
      if opponentWins.isEmpty = false then
        let (bestBlock, _, b') := opponentWins.foldl (blockStep Z myColor)
          (opponentWins.headD ⟨-1, -1⟩, INT_MIN, b)
        (bestBlock, b', s)
      else
        match urgentOf b myColor with
        | some m => (m, b, s)
        | none =>
          let (rootMoves, b) := orderMoves Z b myColor myColor 0 s
          if rootMoves.isEmpty then (⟨-1, -1⟩, b, s)
          else idLoop Z clk myColor (deadline + 1) 1 rootMoves ⟨-1, -1⟩ INT_MIN b s

/-! ## Specification-side definitions -/

/-- The interface invariant on a board representable by the C++ object:
every 64-bit chunk actually fits in 64 bits. -/
def Board.Wf (b : Board) : Prop :=
  b.black.c0 < 2 ^ 64 ∧ b.black.c1 < 2 ^ 64 ∧ b.black.c2 < 2 ^ 64 ∧
  b.white.c0 < 2 ^ 64 ∧ b.white.c1 < 2 ^ 64 ∧ b.white.c2 < 2 ^ 64

instance (b : Board) : Decidable b.Wf := by unfold Board.Wf; infer_instance

/-- Spec-side cell content: `p` has a stone at `(x, y)`. -/
def hasStone (b : Board) (p : Player) (x y : Int) : Prop :=
  b.getCellState x y = (if p = .Black then 1 else 2)

instance (b : Board) (p : Player) (x y : Int) : Decidable (hasStone b p x y) := by
  unfold hasStone; infer_instance

/-- Spec-side predicate for claim C5: `p` has five contiguous collinear
stones in one of the four scan directions starting at some cell. -/
def hasFiveInRow (b : Board) (p : Player) : Prop :=
  ∃ x y dx dy, ((dx, dy) ∈ dirs) ∧
    ∀ i : Nat, i < 5 → hasStone b p (x + (i : Int) * dx) (y + (i : Int) * dy)

/-- Play a sequence of moves, failing when any of them is rejected: the
"legal move sequences" of the claims. -/
def playMoves (Z : Zobrist) : Board → List (Int × Int) → Option Board
  | b, [] => some b
  | b, (x, y) :: rest =>
    let (ok, b') := b.makeMove Z x y
    if ok then playMoves Z b' rest else none

/-- A position reachable from the initial board by legal moves. -/
def Reachable (Z : Zobrist) (b : Board) : Prop :=
  ∃ ms, playMoves Z (initialBoard Z) ms = some b

/-- The undo contract of the spec: `unmakeMove` may only be applied to the
cell of the most recent move, i.e. an on-board cell currently holding a
stone of the player who is about to become to-move again (the opponent of
the current side to move). -/
def undoOk (b : Board) (x y : Int) : Prop :=
  inRange x y = true ∧ hasStone b b.side_to_move.flip x y

/-- Boards produced by the documented lifecycle: the initial position,
successful `makeMove`s, and contract-respecting `unmakeMove`s (claim C4
quantifies over these call sequences). -/
inductive LifecycleReach (Z : Zobrist) : Board → Prop where
  | init : LifecycleReach Z (initialBoard Z)
  | make (b : Board) (x y : Int) : LifecycleReach Z b →
      (b.makeMove Z x y).1 = true → LifecycleReach Z (b.makeMove Z x y).2
  | undo (b : Board) (x y : Int) : LifecycleReach Z b →
      undoOk b x y → LifecycleReach Z (b.unmakeMove Z x y).2

/-- The Zobrist contribution of one cell of a board. -/
def cellContrib (Z : Zobrist) (b : Board) (c : Int × Int) : Nat :=
  if b.getCellState c.1 c.2 = 1 then Z.table c.1.toNat c.2.toNat 0
  else if b.getCellState c.1 c.2 = 2 then Z.table c.1.toNat c.2.toNat 1
  else 0

/-- The state hash as a pure function of the cell states and the side to
move: xor of all occupied cells' keys plus the side marker. -/
def zobristHashOf (Z : Zobrist) (b : Board) : Nat :=
  (allCells.foldl (fun h c => h ^^^ cellContrib Z b c) 0) ^^^
    (if b.side_to_move = .White then Z.side else 0)

/-- Spec-side predicate for claim C6: some length-5 window nominates the
cell at this severity. -/
def nominates (b : Board) (defender : Player) (cell : Int × Int) (sev : Int) : Prop :=
  ∃ ctx ∈ threatLineCtxs, ∃ i, i + 5 ≤ ctx.length ∧
    (cell, sev) ∈ windowNoms (buildGrid b defender) ctx i

/-- The ordered root move list `findBestMove` builds before its deepening
loop (used to state claims C1 and C2). -/
def rootMovesOf (Z : Zobrist) (b : Board) (myColor : Player) : List Move :=
  (orderMoves Z b myColor myColor 0 freshEng).1

/-- A trivial concrete Zobrist instance used by closed counterexamples
and witnesses (all claims are proved for every `Z`). -/
def Z0 : Zobrist := ⟨fun _ _ _ => 0, 0⟩

/-- Row-major list of the 140 cells empty in the starting position;
playing them in order fills the whole board legally. -/
def fillMoves : List (Int × Int) :=
  allCells.filter fun c => !(initialBoard Z0).isOccupied c.1 c.2

/-- The completely full board reached from the initial position by playing
`fillMoves` (with the trivial Zobrist instance `Z0`). -/
def fullBoard : Board :=
  fillMoves.foldl (fun b c => (b.makeMove Z0 c.1 c.2).2) (initialBoard Z0)

/-- The five-stone board used by the C2 counterexample: the initial
position after Black plays (5,4). -/
def boardB5 : Board := ((initialBoard Z0).makeMove Z0 5 4).2

/-- Apply a move list, ignoring per-move success (the counterexample and
witness boards below are built only from legal sequences). -/
def playAll (Z : Zobrist) (b : Board) (ms : List (Int × Int)) : Board :=
  ms.foldl (fun b c => (b.makeMove Z c.1 c.2).2) b

/-- A board where Black owns the row cells (0,0)..(4,0) (five in a row),
built legally with White filler stones on the right edge. -/
def rowBoard : Board :=
  playAll Z0 (initialBoard Z0)
    [(0, 0), (11, 11), (1, 0), (11, 10), (2, 0), (11, 9), (3, 0), (11, 8), (4, 0)]

/-- A board where White (the attacker against defender Black) has an open
four on row 0 at (3,0)..(6,0), built legally with Black fillers. -/
def threatBoard : Board :=
  playAll Z0 (initialBoard Z0)
    [(11, 11), (3, 0), (11, 10), (4, 0), (11, 9), (5, 0), (11, 8), (6, 0)]

/-- Left fold of binary max over an optional accumulator, the shape of the
`bestSeverity` accumulation. -/
def combineMax (o : Option Int) (vs : List Int) : Option Int :=
  vs.foldl (fun o v => match o with | none => some v | some w => some (max w v)) o

/-- All window nominations of the threat scan, flattened in scan order. -/
def allNoms (b : Board) (defender : Player) : List ((Int × Int) × Int) :=
  threatLineCtxs.flatMap fun ctx =>
    (List.range (ctx.length + 1 - 5)).flatMap fun i =>
      windowNoms (buildGrid b defender) ctx i

/-- The descending-severity comparison used to sort threat moves. -/
instance : IsTotal ThreatMove (fun a c => c.severity ≤ a.severity) :=
  ⟨fun a c => le_total c.severity a.severity⟩

instance : IsTrans ThreatMove (fun a c => c.severity ≤ a.severity) :=
  ⟨fun _ _ _ h1 h2 => le_trans h2 h1⟩

/-- The board invariant that no cell is occupied by both players at once
(every board produced by the C++ lifecycle satisfies it). -/
def Board.NoOverlap (b : Board) : Bool :=
  allCells.all fun c => !(b.stoneAt .Black c.1 c.2 && b.stoneAt .White c.1 c.2)

/-! ## Bit-level board lemmas -/

set_option maxRecDepth 40000

theorem inRange_iff {x y : Int} :
    inRange x y = true ↔ 0 ≤ x ∧ x < 12 ∧ 0 ≤ y ∧ y < 12 := by
  simp [inRange, and_assoc]

theorem chunkOf_eq (i : Nat) : chunkOf i = i / 64 := by
  simp [chunkOf, Nat.shiftRight_eq_div_pow]

theorem offsetOf_eq (i : Nat) : offsetOf i = i % 64 := by
  have h : offsetOf i = i &&& 2 ^ 6 - 1 := rfl
  rw [h, Nat.and_pow_two_sub_one_eq_mod]

theorem cellIndex_lt {x y : Int} (h : inRange x y = true) : cellIndex x y < 144 := by
  rw [inRange_iff] at h
  simp only [cellIndex]
  omega

theorem cellIndex_inj {x y x' y' : Int} (h : inRange x y = true)
    (h' : inRange x' y' = true) (he : cellIndex x y = cellIndex x' y') :
    x = x' ∧ y = y' := by
  rw [inRange_iff] at h h'
  simp only [cellIndex] at he
  omega

theorem offsetOf_lt (i : Nat) : offsetOf i < 64 := by
  rw [offsetOf_eq]; omega

theorem chunkOf_lt {i : Nat} (h : i < 144) : chunkOf i < 3 := by
  rw [chunkOf_eq]; omega

theorem chunk_offset_decompose (i : Nat) : 64 * chunkOf i + offsetOf i = i := by
  rw [chunkOf_eq, offsetOf_eq]; exact Nat.div_add_mod i 64

theorem Bitboards.get_set_self (bb : Bitboards) {c : Nat} (v : Nat) (h : c < 3) :
    (bb.set c v).get c = v := by
  unfold Bitboards.set Bitboards.get
  interval_cases c <;> rfl

theorem Bitboards.get_set_ne (bb : Bitboards) {c c' : Nat} (v : Nat) (h : c < 3)
    (h' : c' < 3) (hne : c' ≠ c) : (bb.set c v).get c' = bb.get c' := by
  unfold Bitboards.set Bitboards.get
  interval_cases c <;> interval_cases c' <;> simp_all

theorem Board.bbOf_setBB_self (b : Board) (p : Player) (v : Bitboards) :
    ((b.setBB p v).bbOf p) = v := by
  cases p <;> rfl

theorem Board.bbOf_setBB_ne (b : Board) {p q : Player} (v : Bitboards) (h : q ≠ p) :
    ((b.setBB p v).bbOf q) = b.bbOf q := by
  cases p <;> cases q <;> simp_all <;> rfl

theorem Board.setBB_hashKey (b : Board) (p : Player) (v : Bitboards) :
    (b.setBB p v).hashKey = b.hashKey := by
  cases p <;> rfl

theorem Board.setBB_side (b : Board) (p : Player) (v : Bitboards) :
    (b.setBB p v).side_to_move = b.side_to_move := by
  cases p <;> rfl

theorem and_mask_ne_zero (w off : Nat) :
    (w &&& (1 <<< off) ≠ 0) ↔ w.testBit off := by
  rw [Nat.shiftLeft_eq, one_mul, Nat.and_two_pow]
  rcases h : w.testBit off <;> simp [h] <;> positivity

theorem Player.flip_flip (p : Player) : p.flip.flip = p := by cases p <;> rfl

theorem Player.flip_ne (p : Player) : p.flip ≠ p := by cases p <;> simp [Player.flip]

/-! ## Effects of makeMove / unmakeMove -/

theorem Board.makeMove_fst (Z : Zobrist) (b : Board) (x y : Int) :
    (b.makeMove Z x y).1 = (inRange x y && !b.isOccupied x y) := by
  unfold Board.makeMove
  rcases h : inRange x y <;> rcases h2 : b.isOccupied x y <;> simp [h, h2]

theorem Board.makeMove_fail {Z : Zobrist} {b : Board} {x y : Int}
    (h : inRange x y = false ∨ b.isOccupied x y = true) :
    b.makeMove Z x y = (false, b) := by
  unfold Board.makeMove
  rcases h with h | h
  · simp [h]
  · rcases h2 : inRange x y <;> simp [h, h2]

theorem Board.makeMove_side {Z : Zobrist} {b : Board} {x y : Int}
    (hr : inRange x y = true) (ho : b.isOccupied x y = false) :
    (b.makeMove Z x y).2.side_to_move = b.side_to_move.flip := by
  simp [Board.makeMove, hr, ho, Board.setBB_side]

theorem Board.makeMove_hash {Z : Zobrist} {b : Board} {x y : Int}
    (hr : inRange x y = true) (ho : b.isOccupied x y = false) :
    (b.makeMove Z x y).2.hashKey =
      b.hashKey ^^^ Z.table x.toNat y.toNat b.side_to_move.toIdx ^^^ Z.side := by
  simp [Board.makeMove, hr, ho, Board.setBB_hashKey, Board.setBB_side]

theorem Board.makeMove_bbOf_self {Z : Zobrist} {b : Board} {x y : Int}
    (hr : inRange x y = true) (ho : b.isOccupied x y = false) :
    (b.makeMove Z x y).2.bbOf b.side_to_move =
      (b.bbOf b.side_to_move).set (chunkOf (cellIndex x y))
        ((b.bbOf b.side_to_move).get (chunkOf (cellIndex x y)) |||
          (1 <<< offsetOf (cellIndex x y))) := by
  simp [Board.makeMove, hr, ho]
  have : ∀ (b' : Board) (v : Bitboards) (h : Nat) (p : Player),
      ({ b'.setBB b.side_to_move v with hashKey := h, side_to_move := p } : Board).bbOf
        b.side_to_move = v := by
    intro b' v h p
    cases b.side_to_move <;> rfl
  exact this ..

theorem Board.makeMove_bbOf_ne {Z : Zobrist} {b : Board} {x y : Int} {q : Player}
    (hr : inRange x y = true) (ho : b.isOccupied x y = false)
    (hq : q ≠ b.side_to_move) :
    (b.makeMove Z x y).2.bbOf q = b.bbOf q := by
  simp [Board.makeMove, hr, ho]
  rcases hs : b.side_to_move <;> rcases hqv : q <;> simp_all <;> rfl

theorem Board.unmakeMove_side (Z : Zobrist) (b : Board) (x y : Int) :
    (b.unmakeMove Z x y).2.side_to_move = b.side_to_move.flip := by
  unfold Board.unmakeMove
  cases hs : b.side_to_move.flip <;> simp [Board.setBB_side]

theorem Board.unmakeMove_hash (Z : Zobrist) (b : Board) (x y : Int) :
    (b.unmakeMove Z x y).2.hashKey =
      b.hashKey ^^^ Z.side ^^^ Z.table x.toNat y.toNat b.side_to_move.flip.toIdx := by
  unfold Board.unmakeMove
  simp [Board.setBB_hashKey, Board.setBB_side]

theorem Board.unmakeMove_bbOf_self (Z : Zobrist) (b : Board) (x y : Int) :
    (b.unmakeMove Z x y).2.bbOf b.side_to_move.flip =
      (b.bbOf b.side_to_move.flip).set (chunkOf (cellIndex x y))
        ((b.bbOf b.side_to_move.flip).get (chunkOf (cellIndex x y)) &&&
          (uint64Max ^^^ (1 <<< offsetOf (cellIndex x y)))) := by
  unfold Board.unmakeMove
  cases hs : b.side_to_move <;>
    simp [hs, Player.flip, Board.setBB, Board.bbOf]

theorem Board.unmakeMove_bbOf_ne {Z : Zobrist} {b : Board} {x y : Int} {q : Player}
    (hq : q ≠ b.side_to_move.flip) :
    (b.unmakeMove Z x y).2.bbOf q = b.bbOf q := by
  unfold Board.unmakeMove
  rcases hs : b.side_to_move <;> rcases hqv : q <;> simp_all [Player.flip] <;> rfl

theorem Bitboards.set_set (bb : Bitboards) {c : Nat} (v v' : Nat) (h : c < 3) :
    (bb.set c v).set c v' = bb.set c v' := by
  unfold Bitboards.set
  interval_cases c <;> rfl

theorem Bitboards.set_get (bb : Bitboards) {c : Nat} (h : c < 3) :
    bb.set c (bb.get c) = bb := by
  unfold Bitboards.set Bitboards.get
  interval_cases c <;> rfl

theorem testBit_high_false {w j : Nat} (hw : w < 2 ^ 64) (hj : 64 ≤ j) :
    w.testBit j = false := by
  apply Nat.testBit_eq_false_of_lt
  calc w < 2 ^ 64 := hw
    _ ≤ 2 ^ j := Nat.pow_le_pow_right (by norm_num) hj

theorem or_and_not_mask {w off : Nat} (hw : w < 2 ^ 64) (hoff : off < 64)
    (hb : w.testBit off = false) :
    (w ||| (1 <<< off)) &&& (uint64Max ^^^ (1 <<< off)) = w := by
  apply Nat.eq_of_testBit_eq
  intro j
  have h1 : (1 <<< off) = 2 ^ off := by rw [Nat.shiftLeft_eq, one_mul]
  have hM : uint64Max = 2 ^ 64 - 1 := rfl
  rw [Nat.testBit_and, Nat.testBit_or, Nat.testBit_xor, h1, hM,
    Nat.testBit_two_pow_sub_one, Nat.testBit_two_pow]
  by_cases hj : j < 64
  · by_cases he : off = j
    · subst he
      simp [hb, hj]
    · simp [hj, he]
  · have hw' : w.testBit j = false := testBit_high_false hw (by omega)
    have hne : ¬(off = j) := by omega
    simp [hw', hj, hne]

theorem and_not_mask_testBit (w off j : Nat) (hoff : off < 64) (hj : j < 64) :
    ((w &&& (uint64Max ^^^ (1 <<< off))).testBit j) = (w.testBit j && !(off = j)) := by
  have h1 : (1 <<< off) = 2 ^ off := by rw [Nat.shiftLeft_eq, one_mul]
  have hM : uint64Max = 2 ^ 64 - 1 := rfl
  rw [Nat.testBit_and, Nat.testBit_xor, h1, hM, Nat.testBit_two_pow_sub_one,
    Nat.testBit_two_pow]
  by_cases he : off = j
  · simp [he, hj]
  · simp [he, hj]

theorem or_mask_testBit (w off j : Nat) :
    ((w ||| (1 <<< off)).testBit j) = (w.testBit j || (off = j)) := by
  have h1 : (1 <<< off) = 2 ^ off := by rw [Nat.shiftLeft_eq, one_mul]
  rw [Nat.testBit_or, h1, Nat.testBit_two_pow]

theorem decide_and_mask (w off : Nat) :
    decide ((w &&& (1 <<< off)) ≠ 0) = w.testBit off := by
  have h2 : w.testBit off = decide (w.testBit off = true) := by simp
  rw [h2, decide_eq_decide]
  exact and_mask_ne_zero w off

theorem Board.isOccupied_eq {b : Board} {x y : Int} (hr : inRange x y = true) :
    b.isOccupied x y =
      (((b.bbOf .Black).get (chunkOf (cellIndex x y))).testBit (offsetOf (cellIndex x y)) ||
       ((b.bbOf .White).get (chunkOf (cellIndex x y))).testBit (offsetOf (cellIndex x y))) := by
  unfold Board.isOccupied
  rw [hr]
  simp only [decide_and_mask, Nat.testBit_or]
  simp

theorem Board.getCellState_eq {b : Board} {x y : Int} (hr : inRange x y = true) :
    b.getCellState x y =
      (if ((b.bbOf .Black).get (chunkOf (cellIndex x y))).testBit (offsetOf (cellIndex x y))
       then 1
       else if ((b.bbOf .White).get (chunkOf (cellIndex x y))).testBit (offsetOf (cellIndex x y))
       then 2 else 0) := by
  unfold Board.getCellState
  rw [hr]
  simp only [and_mask_ne_zero]
  simp

theorem Board.stoneAt_eq {b : Board} {p : Player} {x y : Int} (hr : inRange x y = true) :
    b.stoneAt p x y =
      ((b.bbOf p).get (chunkOf (cellIndex x y))).testBit (offsetOf (cellIndex x y)) := by
  unfold Board.stoneAt
  rw [hr]
  simp only [decide_and_mask]
  simp

theorem Board.not_occupied_bits {b : Board} {x y : Int} (hr : inRange x y = true)
    (ho : b.isOccupied x y = false) :
    ((b.bbOf .Black).get (chunkOf (cellIndex x y))).testBit (offsetOf (cellIndex x y)) = false ∧
    ((b.bbOf .White).get (chunkOf (cellIndex x y))).testBit (offsetOf (cellIndex x y)) = false := by
  rw [Board.isOccupied_eq hr] at ho
  exact ⟨by rcases hb : Nat.testBit _ _ <;> simp_all, by rcases hb : Nat.testBit _ _ <;> simp_all⟩

theorem cellIndex_parts_inj {x y x' y' : Int} (hr : inRange x y = true)
    (hr' : inRange x' y' = true) :
    (chunkOf (cellIndex x' y') = chunkOf (cellIndex x y) ∧
     offsetOf (cellIndex x' y') = offsetOf (cellIndex x y)) ↔ (x' = x ∧ y' = y) := by
  constructor
  · rintro ⟨hc, ho⟩
    have d1 := chunk_offset_decompose (cellIndex x y)
    have d2 := chunk_offset_decompose (cellIndex x' y')
    have : cellIndex x' y' = cellIndex x y := by omega
    have := cellIndex_inj hr' hr this
    exact this
  · rintro ⟨hx, hy⟩
    subst hx; subst hy
    exact ⟨rfl, rfl⟩

theorem Board.makeMove_testBit {Z : Zobrist} {b : Board} {x y : Int}
    (hr : inRange x y = true) (ho : b.isOccupied x y = false) (q : Player)
    {x' y' : Int} (hr' : inRange x' y' = true) :
    (((b.makeMove Z x y).2.bbOf q).get (chunkOf (cellIndex x' y'))).testBit
        (offsetOf (cellIndex x' y')) =
      if q = b.side_to_move ∧ x' = x ∧ y' = y then true
      else ((b.bbOf q).get (chunkOf (cellIndex x' y'))).testBit (offsetOf (cellIndex x' y')) := by
  have hc3 : chunkOf (cellIndex x y) < 3 := chunkOf_lt (cellIndex_lt hr)
  have hc3' : chunkOf (cellIndex x' y') < 3 := chunkOf_lt (cellIndex_lt hr')
  by_cases hq : q = b.side_to_move
  · subst hq
    rw [Board.makeMove_bbOf_self hr ho]
    by_cases hc : chunkOf (cellIndex x' y') = chunkOf (cellIndex x y)
    · rw [hc, Bitboards.get_set_self _ _ hc3, or_mask_testBit]
      by_cases hxy : x' = x ∧ y' = y
      · have ho' : offsetOf (cellIndex x' y') = offsetOf (cellIndex x y) :=
          ((cellIndex_parts_inj hr hr').mpr hxy).2
        simp [hxy, ho']
      · have ho' : ¬(offsetOf (cellIndex x y) = offsetOf (cellIndex x' y')) := by
          intro hoe
          exact hxy ((cellIndex_parts_inj hr hr').mp ⟨hc, hoe.symm⟩)
        simp [hxy, ho']
    · rw [Bitboards.get_set_ne _ _ hc3 hc3' hc]
      have hxy : ¬(x' = x ∧ y' = y) := by
        intro hxy
        exact hc ((cellIndex_parts_inj hr hr').mpr hxy).1
      simp [hxy]
  · rw [Board.makeMove_bbOf_ne hr ho hq]
    simp [hq]

theorem Board.unmakeMove_testBit {Z : Zobrist} {b : Board} {x y : Int}
    (hr : inRange x y = true) (q : Player) {x' y' : Int} (hr' : inRange x' y' = true) :
    (((b.unmakeMove Z x y).2.bbOf q).get (chunkOf (cellIndex x' y'))).testBit
        (offsetOf (cellIndex x' y')) =
      if q = b.side_to_move.flip ∧ x' = x ∧ y' = y then false
      else ((b.bbOf q).get (chunkOf (cellIndex x' y'))).testBit (offsetOf (cellIndex x' y')) := by
  have hc3 : chunkOf (cellIndex x y) < 3 := chunkOf_lt (cellIndex_lt hr)
  have hc3' : chunkOf (cellIndex x' y') < 3 := chunkOf_lt (cellIndex_lt hr')
  have hoff : offsetOf (cellIndex x y) < 64 := offsetOf_lt _
  have hoff' : offsetOf (cellIndex x' y') < 64 := offsetOf_lt _
  by_cases hq : q = b.side_to_move.flip
  · subst hq
    rw [Board.unmakeMove_bbOf_self]
    by_cases hc : chunkOf (cellIndex x' y') = chunkOf (cellIndex x y)
    · rw [hc, Bitboards.get_set_self _ _ hc3, and_not_mask_testBit _ _ _ hoff hoff']
      by_cases hxy : x' = x ∧ y' = y
      · have ho' : offsetOf (cellIndex x' y') = offsetOf (cellIndex x y) :=
          ((cellIndex_parts_inj hr hr').mpr hxy).2
        simp [hxy, ho']
      · have ho' : ¬(offsetOf (cellIndex x y) = offsetOf (cellIndex x' y')) := by
          intro hoe
          exact hxy ((cellIndex_parts_inj hr hr').mp ⟨hc, hoe.symm⟩)
        simp [hxy, ho']
    · rw [Bitboards.get_set_ne _ _ hc3 hc3' hc]
      have hxy : ¬(x' = x ∧ y' = y) := by
        intro hxy
        exact hc ((cellIndex_parts_inj hr hr').mpr hxy).1
      simp [hxy]
  · rw [Board.unmakeMove_bbOf_ne hq]
    simp [hq]

theorem Board.getCellState_makeMove {Z : Zobrist} {b : Board} {x y : Int}
    (hr : inRange x y = true) (ho : b.isOccupied x y = false) (x' y' : Int) :
    (b.makeMove Z x y).2.getCellState x' y' =
      if x' = x ∧ y' = y then (if b.side_to_move = .Black then 1 else 2)
      else b.getCellState x' y' := by
  rcases hr' : inRange x' y' with _ | _
  · have hxy : ¬(x' = x ∧ y' = y) := by
      rintro ⟨hx, hy⟩; subst hx; subst hy; rw [hr] at hr'; cases hr'
    simp [Board.getCellState, hr', hxy]
  · rw [Board.getCellState_eq hr', Board.getCellState_eq hr',
      Board.makeMove_testBit hr ho .Black hr', Board.makeMove_testBit hr ho .White hr']
    by_cases hxy : x' = x ∧ y' = y
    · obtain ⟨hb, hw⟩ := Board.not_occupied_bits hr ho
      obtain ⟨hx, hy⟩ := hxy
      subst hx; subst hy
      rcases hs : b.side_to_move <;> simp_all
    · simp [hxy]

theorem Board.getCellState_unmakeMove {Z : Zobrist} {b : Board} {x y : Int}
    (hr : inRange x y = true)
    (hb1 : ((b.bbOf b.side_to_move.flip).get (chunkOf (cellIndex x y))).testBit
            (offsetOf (cellIndex x y)) = true)
    (hb2 : ((b.bbOf b.side_to_move).get (chunkOf (cellIndex x y))).testBit
            (offsetOf (cellIndex x y)) = false) (x' y' : Int) :
    (b.unmakeMove Z x y).2.getCellState x' y' =
      if x' = x ∧ y' = y then 0 else b.getCellState x' y' := by
  rcases hr' : inRange x' y' with _ | _
  · have hxy : ¬(x' = x ∧ y' = y) := by
      rintro ⟨hx, hy⟩; subst hx; subst hy; rw [hr] at hr'; cases hr'
    simp [Board.getCellState, hr', hxy]
  · rw [Board.getCellState_eq hr', Board.getCellState_eq hr',
      Board.unmakeMove_testBit hr .Black hr', Board.unmakeMove_testBit hr .White hr']
    by_cases hxy : x' = x ∧ y' = y
    · obtain ⟨hx, hy⟩ := hxy
      subst hx; subst hy
      rcases hs : b.side_to_move
      · rcases hp : b.side_to_move.flip <;> simp_all [Player.flip]
      · rcases hp : b.side_to_move.flip <;> simp_all [Player.flip]
    · simp [hxy]

theorem Board.eq_of_parts {b b' : Board}
    (hb : ∀ c, c < 3 → b.black.get c = b'.black.get c)
    (hw : ∀ c, c < 3 → b.white.get c = b'.white.get c)
    (hh : b.hashKey = b'.hashKey) (hs : b.side_to_move = b'.side_to_move) : b = b' := by
  obtain ⟨⟨a0, a1, a2⟩, ⟨c0, c1, c2⟩, h, s⟩ := b
  obtain ⟨⟨a0', a1', a2'⟩, ⟨c0', c1', c2'⟩, h', s'⟩ := b'
  have e0 := hb 0 (by norm_num)
  have e1 := hb 1 (by norm_num)
  have e2 := hb 2 (by norm_num)
  have f0 := hw 0 (by norm_num)
  have f1 := hw 1 (by norm_num)
  have f2 := hw 2 (by norm_num)
  simp_all [Bitboards.get]

theorem Board.unmakeMove_fst (Z : Zobrist) (b : Board) (x y : Int) :
    (b.unmakeMove Z x y).1 = true := rfl

/-- The core of claim C3: a successful `makeMove` followed by
`unmakeMove` on the same cell restores the board exactly. -/
theorem Board.unmake_make {Z : Zobrist} {b : Board} {x y : Int} (hwf : b.Wf)
    (hr : inRange x y = true) (ho : b.isOccupied x y = false) :
    (b.makeMove Z x y).2.unmakeMove Z x y = (true, b) := by
  have hc3 : chunkOf (cellIndex x y) < 3 := chunkOf_lt (cellIndex_lt hr)
  have hoff : offsetOf (cellIndex x y) < 64 := offsetOf_lt _
  set i := cellIndex x y with hi
  set c := chunkOf i with hc
  set off := offsetOf i with hoffdef
  set p := b.side_to_move with hp
  set b1 := (b.makeMove Z x y).2 with hb1
  set b2 := (b1.unmakeMove Z x y).2 with hb2
  have hside1 : b1.side_to_move = p.flip := Board.makeMove_side hr ho
  have hhash1 : b1.hashKey = b.hashKey ^^^ Z.table x.toNat y.toNat p.toIdx ^^^ Z.side :=
    Board.makeMove_hash hr ho
  have hbbp : b1.bbOf p = (b.bbOf p).set c ((b.bbOf p).get c ||| (1 <<< off)) :=
    Board.makeMove_bbOf_self hr ho
  have hbbq : ∀ q, q ≠ p → b1.bbOf q = b.bbOf q := fun q hq => Board.makeMove_bbOf_ne hr ho hq
  have hflip1 : b1.side_to_move.flip = p := by rw [hside1, Player.flip_flip]
  -- the cleared word is the original word
  have hwb : (b.bbOf p).get c < 2 ^ 64 := by
    obtain ⟨w1, w2, w3, w4, w5, w6⟩ := hwf
    rcases p with _ | _ <;> rcases c with _ | _ | cc
    · exact w1
    · exact w2
    · exact w3
    · exact w4
    · exact w5
    · exact w6
  have hbit : ((b.bbOf p).get c).testBit off = false := by
    obtain ⟨hB, hW⟩ := Board.not_occupied_bits hr ho
    rcases hpv : p with _ | _ <;> simp_all
  have hrestore :
      (((b.bbOf p).get c ||| (1 <<< off)) &&& (uint64Max ^^^ (1 <<< off))) = (b.bbOf p).get c :=
    or_and_not_mask hwb hoff hbit
  -- unmake fields
  have hside2 : b2.side_to_move = p := by
    rw [hb2, Board.unmakeMove_side, hside1, Player.flip_flip]
  have hhash2 : b2.hashKey = b.hashKey := by
    rw [hb2, Board.unmakeMove_hash, hside1, Player.flip_flip, hhash1]
    rw [Nat.xor_cancel_right, Nat.xor_cancel_right]
  have hbb2p : b2.bbOf p = b.bbOf p := by
    have h0 := Board.unmakeMove_bbOf_self Z b1 x y
    rw [hflip1] at h0
    rw [hb2, h0, hbbp, Bitboards.get_set_self _ _ hc3, Bitboards.set_set _ _ _ hc3,
      hrestore, Bitboards.set_get _ hc3]
  have hbb2q : ∀ q, q ≠ p → b2.bbOf q = b.bbOf q := by
    intro q hq
    have hq' : q ≠ b1.side_to_move.flip := by rw [hflip1]; exact hq
    rw [hb2, Board.unmakeMove_bbOf_ne hq', hbbq q hq]
  have hblack : b2.black = b.black := by
    rcases hpv : p with _ | _
    · have := hbb2p; rw [hpv] at this; exact this
    · have := hbb2q .Black (by rw [hpv]; intro hcon; cases hcon); exact this
  have hwhite : b2.white = b.white := by
    rcases hpv : p with _ | _
    · have := hbb2q .White (by rw [hpv]; intro hcon; cases hcon); exact this
    · have := hbb2p; rw [hpv] at this; exact this
  have hfst : (b1.unmakeMove Z x y).1 = true := Board.unmakeMove_fst Z b1 x y
  have hsnd : (b1.unmakeMove Z x y).2 = b := by
    apply Board.eq_of_parts
    · intro c' hc'; rw [← hb2, hblack]
    · intro c' hc'; rw [← hb2, hwhite]
    · rw [← hb2]; exact hhash2
    · rw [← hb2]; exact hside2
  calc b1.unmakeMove Z x y = ((b1.unmakeMove Z x y).1, (b1.unmakeMove Z x y).2) := rfl
    _ = (true, b) := by rw [hfst, hsnd]

theorem mem_allCells {x y : Int} : (x, y) ∈ allCells ↔ inRange x y = true := by
  rw [inRange_iff]
  constructor
  · intro h
    obtain ⟨yl, hyl, h2⟩ := List.mem_flatMap.mp h
    obtain ⟨xl, hxl, he⟩ := List.mem_map.mp h2
    rw [List.mem_range] at hyl hxl
    rw [Prod.mk.injEq] at he
    omega
  · rintro ⟨h1, h2, h3, h4⟩
    apply List.mem_flatMap.mpr
    refine ⟨y.toNat, List.mem_range.mpr (by omega), ?_⟩
    apply List.mem_map.mpr
    refine ⟨x.toNat, List.mem_range.mpr (by omega), ?_⟩
    rw [Prod.mk.injEq]
    omega

theorem allCells_nodup : allCells.Nodup := by decide

/-! ## Claim C3 and C9 -/

/-- C3: for every (well-formed) board state and every in-range empty cell,
`makeMove` succeeds and an immediate `unmakeMove` on the same cell
restores the board exactly (hence the occupancy of every cell, the
side-to-move and the hash key). -/
theorem claim_C3 (Z : Zobrist) (b : Board) (x y : Int) (hwf : b.Wf)
    (hr : inRange x y = true) (ho : b.isOccupied x y = false) :
    (b.makeMove Z x y).1 = true ∧
    (b.makeMove Z x y).2.unmakeMove Z x y = (true, b) := by
  refine ⟨?_, Board.unmake_make hwf hr ho⟩
  rw [Board.makeMove_fst, hr, ho]
  rfl

/-- Witness for C3 at a concrete input: the initial board and cell (0,0). -/
theorem claim_C3_witness :
    ((initialBoard Z0).makeMove Z0 0 0).1 = true ∧
    ((initialBoard Z0).makeMove Z0 0 0).2.unmakeMove Z0 0 0 = (true, initialBoard Z0) :=
  claim_C3 Z0 (initialBoard Z0) 0 0 (by decide) (by decide) (by decide)

/-- C9: `makeMove` returns false and leaves the board unchanged when the
cell is off the board or occupied by either side; otherwise it places the
mover's stone on exactly that cell, flips the side to move, xors the cell
and side keys into the hash, and returns true. -/
theorem claim_C9 (Z : Zobrist) (b : Board) (x y : Int) :
    ((inRange x y = false ∨ b.isOccupied x y = true) → b.makeMove Z x y = (false, b)) ∧
    (inRange x y = true → b.isOccupied x y = false →
      (b.makeMove Z x y).1 = true ∧
      (∀ x' y', (b.makeMove Z x y).2.getCellState x' y' =
        if x' = x ∧ y' = y then (if b.side_to_move = .Black then 1 else 2)
        else b.getCellState x' y') ∧
      (b.makeMove Z x y).2.side_to_move = b.side_to_move.flip ∧
      (b.makeMove Z x y).2.hashKey =
        b.hashKey ^^^ Z.table x.toNat y.toNat b.side_to_move.toIdx ^^^ Z.side) := by
  refine ⟨fun h => Board.makeMove_fail h, fun hr ho => ⟨?_, ?_, ?_, ?_⟩⟩
  · rw [Board.makeMove_fst, hr, ho]; rfl
  · exact fun x' y' => Board.getCellState_makeMove hr ho x' y'
  · exact Board.makeMove_side hr ho
  · exact Board.makeMove_hash hr ho

/-- Witness for C9: the rejection branch at the occupied cell (5,5) and
the success branch at (0,0), on the initial board. -/
theorem claim_C9_witness :
    (initialBoard Z0).makeMove Z0 5 5 = (false, initialBoard Z0) ∧
    ((initialBoard Z0).makeMove Z0 0 0).1 = true ∧
    ((initialBoard Z0).makeMove Z0 0 0).2.side_to_move = Player.White :=
  ⟨(claim_C9 Z0 (initialBoard Z0) 5 5).1 (Or.inr (by decide)),
   ((claim_C9 Z0 (initialBoard Z0) 0 0).2 (by decide) (by decide)).1,
   by
    rw [((claim_C9 Z0 (initialBoard Z0) 0 0).2 (by decide) (by decide)).2.2.1]
    rfl⟩

/-! ## Claim C4: the hash is a pure function of (cells, side to move) -/

theorem noOverlap_iff {b : Board} :
    b.NoOverlap = true ↔
      ∀ x y : Int, inRange x y = true →
        ¬(b.stoneAt .Black x y = true ∧ b.stoneAt .White x y = true) := by
  unfold Board.NoOverlap
  rw [List.all_eq_true]
  constructor
  · intro h x y hr hcon
    have := h (x, y) (mem_allCells.mpr hr)
    simp only [Bool.not_eq_true'] at this
    rw [hcon.1, hcon.2] at this
    cases this
  · intro h c hc
    obtain ⟨x, y⟩ := c
    have hr := mem_allCells.mp hc
    have := h x y hr
    rcases h1 : b.stoneAt .Black x y <;> rcases h2 : b.stoneAt .White x y <;> simp_all

theorem foldl_xor_shift (l : List (Int × Int)) (f : Int × Int → Nat) (init v : Nat) :
    l.foldl (fun h c => h ^^^ f c) (init ^^^ v) =
      (l.foldl (fun h c => h ^^^ f c) init) ^^^ v := by
  induction l generalizing init with
  | nil => rfl
  | cons c rest ih =>
    simp only [List.foldl_cons]
    rw [show init ^^^ v ^^^ f c = (init ^^^ f c) ^^^ v by ac_rfl]
    exact ih (init ^^^ f c)

theorem foldl_xor_single {l : List (Int × Int)} {f g : Int × Int → Nat}
    {c0 : Int × Int} {v : Nat} (hnd : l.Nodup) (hmem : c0 ∈ l)
    (hsame : ∀ c ∈ l, c ≠ c0 → g c = f c) (hdelta : g c0 = f c0 ^^^ v) :
    l.foldl (fun h c => h ^^^ g c) 0 = (l.foldl (fun h c => h ^^^ f c) 0) ^^^ v := by
  induction l with
  | nil => cases hmem
  | cons c rest ih =>
    rcases List.mem_cons.mp hmem with hc | hc
    · subst hc
      have hrest : ∀ c' ∈ rest, g c' = f c' := by
        intro c' hc'
        have hne : c' ≠ c0 := fun he => (List.nodup_cons.mp hnd).1 (he ▸ hc')
        exact hsame c' (List.mem_cons_of_mem _ hc') hne
      have hfold : rest.foldl (fun h c => h ^^^ g c) (0 ^^^ g c0) =
          rest.foldl (fun h c => h ^^^ f c) (0 ^^^ g c0) := by
        apply List.foldl_ext
        intro acc c' hc'
        rw [hrest c' hc']
      simp only [List.foldl_cons]
      rw [hfold, hdelta, show (0 : Nat) ^^^ (f c0 ^^^ v) = (0 ^^^ f c0) ^^^ v by ac_rfl,
        foldl_xor_shift]
    · have hnd' := (List.nodup_cons.mp hnd).2
      have hcne : c ≠ c0 := fun he => (List.nodup_cons.mp hnd).1 (he ▸ hc)
      have hsame' : ∀ c' ∈ rest, c' ≠ c0 → g c' = f c' :=
        fun c' hc' => hsame c' (List.mem_cons_of_mem _ hc')
      simp only [List.foldl_cons]
      rw [hsame c (List.mem_cons_self c rest) hcne]
      rw [show (0 : Nat) ^^^ f c = 0 ^^^ f c from rfl]
      rw [show rest.foldl (fun h c => h ^^^ g c) (0 ^^^ f c) =
            (rest.foldl (fun h c => h ^^^ g c) 0) ^^^ f c from by
          have := foldl_xor_shift rest g 0 (f c)
          simpa using this,
        show rest.foldl (fun h c => h ^^^ f c) (0 ^^^ f c) =
            (rest.foldl (fun h c => h ^^^ f c) 0) ^^^ f c from by
          have := foldl_xor_shift rest f 0 (f c)
          simpa using this]
      rw [ih hnd' hc hsame']
      ac_rfl

theorem zobristHashOf_congr {Z : Zobrist} {b1 b2 : Board}
    (hc : ∀ x y, b1.getCellState x y = b2.getCellState x y)
    (hs : b1.side_to_move = b2.side_to_move) :
    zobristHashOf Z b1 = zobristHashOf Z b2 := by
  unfold zobristHashOf
  rw [hs]
  congr 1
  apply List.foldl_ext
  intro acc c _
  unfold cellContrib
  rw [hc]

theorem Board.getCellState_of_not_occupied {b : Board} {x y : Int}
    (hr : inRange x y = true) (ho : b.isOccupied x y = false) :
    b.getCellState x y = 0 := by
  obtain ⟨hB, hW⟩ := Board.not_occupied_bits hr ho
  rw [Board.getCellState_eq hr, hB, hW]
  rfl

theorem hasStone_bits {b : Board} {q : Player} {x y : Int} (hr : inRange x y = true)
    (hno : b.NoOverlap = true) (hq : hasStone b q x y) :
    ((b.bbOf q).get (chunkOf (cellIndex x y))).testBit (offsetOf (cellIndex x y)) = true ∧
    ((b.bbOf q.flip).get (chunkOf (cellIndex x y))).testBit (offsetOf (cellIndex x y)) = false := by
  have hst := hq
  unfold hasStone at hst
  rw [Board.getCellState_eq hr] at hst
  have hnov := (noOverlap_iff.mp hno) x y hr
  rw [Board.stoneAt_eq hr, Board.stoneAt_eq hr] at hnov
  rcases q with _ | _
  · simp only [if_pos rfl] at hst
    rcases hB : ((b.bbOf .Black).get (chunkOf (cellIndex x y))).testBit (offsetOf (cellIndex x y))
    · rw [hB] at hst
      rcases hW : ((b.bbOf .White).get (chunkOf (cellIndex x y))).testBit (offsetOf (cellIndex x y)) <;>
        simp [hB, hW] at hst
    · refine ⟨rfl, ?_⟩
      rcases hW : ((b.bbOf Player.Black.flip).get (chunkOf (cellIndex x y))).testBit
          (offsetOf (cellIndex x y))
      · rfl
      · exact absurd ⟨hB, hW⟩ hnov
  · simp only [reduceCtorEq, if_false] at hst
    rcases hB : ((b.bbOf .Black).get (chunkOf (cellIndex x y))).testBit (offsetOf (cellIndex x y))
    · rw [hB] at hst
      rcases hW : ((b.bbOf .White).get (chunkOf (cellIndex x y))).testBit (offsetOf (cellIndex x y))
      · rw [hW] at hst; simp at hst
      · exact ⟨rfl, by simpa [Player.flip] using hB⟩
    · rw [hB] at hst; simp at hst

theorem noOverlap_makeMove {Z : Zobrist} {b : Board} {x y : Int}
    (hr : inRange x y = true) (ho : b.isOccupied x y = false)
    (hno : b.NoOverlap = true) : (b.makeMove Z x y).2.NoOverlap = true := by
  rw [noOverlap_iff]
  intro x' y' hr'
  rw [Board.stoneAt_eq hr', Board.stoneAt_eq hr',
    Board.makeMove_testBit hr ho .Black hr', Board.makeMove_testBit hr ho .White hr']
  obtain ⟨hB, hW⟩ := Board.not_occupied_bits hr ho
  by_cases hxy : x' = x ∧ y' = y
  · obtain ⟨hx, hy⟩ := hxy
    subst hx; subst hy
    rcases hs : b.side_to_move <;> simp_all
  · have := (noOverlap_iff.mp hno) x' y' hr'
    rw [Board.stoneAt_eq hr', Board.stoneAt_eq hr'] at this
    simpa [hxy] using this

theorem noOverlap_unmakeMove {Z : Zobrist} {b : Board} {x y : Int}
    (hr : inRange x y = true) (hno : b.NoOverlap = true) :
    (b.unmakeMove Z x y).2.NoOverlap = true := by
  rw [noOverlap_iff]
  intro x' y' hr'
  rw [Board.stoneAt_eq hr', Board.stoneAt_eq hr',
    Board.unmakeMove_testBit hr .Black hr', Board.unmakeMove_testBit hr .White hr']
  have := (noOverlap_iff.mp hno) x' y' hr'
  rw [Board.stoneAt_eq hr', Board.stoneAt_eq hr'] at this
  by_cases h1 : Player.Black = b.side_to_move.flip ∧ x' = x ∧ y' = y
  · simp [h1]
  · by_cases h2 : Player.White = b.side_to_move.flip ∧ x' = x ∧ y' = y
    · simp [h1, h2]
    · simpa [h1, h2] using this

theorem cellContrib_congr {Z : Zobrist} {b b' : Board} {c : Int × Int}
    (h : b'.getCellState c.1 c.2 = b.getCellState c.1 c.2) :
    cellContrib Z b' c = cellContrib Z b c := by
  unfold cellContrib
  simp only [h]

theorem hash_inv_make {Z : Zobrist} {b : Board} {x y : Int}
    (hr : inRange x y = true) (ho : b.isOccupied x y = false)
    (hinv : b.hashKey = zobristHashOf Z b) :
    (b.makeMove Z x y).2.hashKey = zobristHashOf Z (b.makeMove Z x y).2 := by
  set b' := (b.makeMove Z x y).2 with hb'
  set T := Z.table x.toNat y.toNat b.side_to_move.toIdx with hT
  have hdelta : cellContrib Z b' (x, y) = cellContrib Z b (x, y) ^^^ T := by
    have h1 : b'.getCellState x y = (if b.side_to_move = .Black then 1 else 2) := by
      rw [hb', Board.getCellState_makeMove hr ho x y]
      simp
    have h2 : b.getCellState x y = 0 := Board.getCellState_of_not_occupied hr ho
    unfold cellContrib
    simp only [h1, h2]
    rcases hp : b.side_to_move <;> simp [hT, hp, Player.toIdx]
  have hfold : allCells.foldl (fun h c => h ^^^ cellContrib Z b' c) 0 =
      (allCells.foldl (fun h c => h ^^^ cellContrib Z b c) 0) ^^^ T := by
    apply foldl_xor_single allCells_nodup (mem_allCells.mpr hr) _ hdelta
    intro c hc hne
    apply cellContrib_congr
    rw [hb', Board.getCellState_makeMove hr ho c.1 c.2, if_neg]
    rintro ⟨h1, h2⟩
    exact hne (Prod.ext h1 h2)
  have hside : (if b'.side_to_move = .White then Z.side else 0) =
      (if b.side_to_move = .White then Z.side else 0) ^^^ Z.side := by
    rw [hb', Board.makeMove_side hr ho]
    rcases hp : b.side_to_move <;> simp [Player.flip]
  rw [show b'.hashKey = b.hashKey ^^^ T ^^^ Z.side from Board.makeMove_hash hr ho, hinv]
  unfold zobristHashOf
  rw [hfold, hside]
  ac_rfl

theorem hash_inv_undo {Z : Zobrist} {b : Board} {x y : Int}
    (hu : undoOk b x y) (hno : b.NoOverlap = true)
    (hinv : b.hashKey = zobristHashOf Z b) :
    (b.unmakeMove Z x y).2.hashKey = zobristHashOf Z (b.unmakeMove Z x y).2 := by
  obtain ⟨hr, hstone⟩ := hu
  obtain ⟨hb1, hb2⟩ := hasStone_bits hr hno hstone
  rw [Player.flip_flip] at hb2
  set b' := (b.unmakeMove Z x y).2 with hb'
  set T := Z.table x.toNat y.toNat b.side_to_move.flip.toIdx with hT
  have hcells : ∀ x' y', b'.getCellState x' y' =
      if x' = x ∧ y' = y then 0 else b.getCellState x' y' :=
    Board.getCellState_unmakeMove hr hb1 hb2
  have hdelta : cellContrib Z b' (x, y) = cellContrib Z b (x, y) ^^^ T := by
    have h1 : b'.getCellState x y = 0 := by
      rw [hcells x y]
      simp
    have h2 : b.getCellState x y = (if b.side_to_move.flip = .Black then 1 else 2) := hstone
    unfold cellContrib
    simp only [h1, h2]
    rcases hp : b.side_to_move.flip <;> simp [hT, hp, Player.toIdx, Nat.xor_comm]
  have hfold : allCells.foldl (fun h c => h ^^^ cellContrib Z b' c) 0 =
      (allCells.foldl (fun h c => h ^^^ cellContrib Z b c) 0) ^^^ T := by
    apply foldl_xor_single allCells_nodup (mem_allCells.mpr hr) _ hdelta
    intro c hc hne
    apply cellContrib_congr
    rw [hcells c.1 c.2, if_neg]
    rintro ⟨h1, h2⟩
    exact hne (Prod.ext h1 h2)
  have hside : (if b'.side_to_move = .White then Z.side else 0) =
      (if b.side_to_move = .White then Z.side else 0) ^^^ Z.side := by
    rw [hb', Board.unmakeMove_side]
    rcases hp : b.side_to_move <;> simp [Player.flip]
  rw [show b'.hashKey = b.hashKey ^^^ Z.side ^^^ T from Board.unmakeMove_hash Z b x y, hinv]
  unfold zobristHashOf
  rw [hfold, hside]
  ac_rfl

theorem foldl_xor_filter (f : Int × Int → Nat) (p : Int × Int → Bool) :
    ∀ (l : List (Int × Int)) (init : Nat), (∀ c ∈ l, p c = false → f c = 0) →
      l.foldl (fun h c => h ^^^ f c) init = (l.filter p).foldl (fun h c => h ^^^ f c) init := by
  intro l
  induction l with
  | nil => intro init h; rfl
  | cons c rest ih =>
    intro init h
    rcases hp : p c
    · have hz : f c = 0 := h c (List.mem_cons_self c rest) hp
      rw [List.filter_cons_of_neg (by simp [hp]), List.foldl_cons, hz, Nat.xor_zero]
      exact ih init fun c' hc' => h c' (List.mem_cons_of_mem _ hc')
    · rw [List.filter_cons_of_pos hp, List.foldl_cons, List.foldl_cons]
      exact ih (init ^^^ f c) fun c' hc' => h c' (List.mem_cons_of_mem _ hc')

theorem initial_state_eq (Z : Zobrist) (x y : Int) :
    (initialBoard Z).getCellState x y = (initialBoard Z0).getCellState x y := rfl

theorem initial_noOverlap (Z : Zobrist) : (initialBoard Z).NoOverlap = true := by
  have h : (initialBoard Z).NoOverlap = (initialBoard Z0).NoOverlap := rfl
  rw [h]
  decide

theorem initial_cells_empty (Z : Zobrist) : ∀ c ∈ allCells,
    (decide (c ∈ ([(5, 5), (6, 5), (5, 6), (6, 6)] : List (Int × Int))) = false) →
    (initialBoard Z).getCellState c.1 c.2 = 0 := by
  intro c hc hp
  rw [initial_state_eq]
  revert hp
  revert hc
  revert c
  decide

theorem initial_filter :
    allCells.filter (fun c => decide (c ∈ ([(5, 5), (6, 5), (5, 6), (6, 6)] : List (Int × Int)))) =
      [(5, 5), (6, 5), (5, 6), (6, 6)] := by decide

theorem initial_hash_inv (Z : Zobrist) :
    (initialBoard Z).hashKey = zobristHashOf Z (initialBoard Z) := by
  have hsupp : ∀ c ∈ allCells,
      (decide (c ∈ ([(5, 5), (6, 5), (5, 6), (6, 6)] : List (Int × Int))) = false) →
      cellContrib Z (initialBoard Z) c = 0 := by
    intro c hc hp
    unfold cellContrib
    simp only [initial_cells_empty Z c hc hp]
    norm_num
  have c1 : cellContrib Z (initialBoard Z) (5, 5) = Z.table 5 5 1 := by
    unfold cellContrib
    simp only [initial_state_eq,
      show (initialBoard Z0).getCellState 5 5 = 2 from by decide]
    norm_num
    rfl
  have c2 : cellContrib Z (initialBoard Z) (6, 5) = Z.table 6 5 0 := by
    unfold cellContrib
    simp only [initial_state_eq,
      show (initialBoard Z0).getCellState 6 5 = 1 from by decide]
    norm_num
    rfl
  have c3 : cellContrib Z (initialBoard Z) (5, 6) = Z.table 5 6 0 := by
    unfold cellContrib
    simp only [initial_state_eq,
      show (initialBoard Z0).getCellState 5 6 = 1 from by decide]
    norm_num
    rfl
  have c4 : cellContrib Z (initialBoard Z) (6, 6) = Z.table 6 6 1 := by
    unfold cellContrib
    simp only [initial_state_eq,
      show (initialBoard Z0).getCellState 6 6 = 2 from by decide]
    norm_num
    rfl
  unfold zobristHashOf
  rw [foldl_xor_filter _ _ allCells 0 hsupp, initial_filter]
  simp only [List.foldl_cons, List.foldl_nil, c1, c2, c3, c4]
  rw [show (initialBoard Z).side_to_move = .Black from rfl]
  rw [show (initialBoard Z).hashKey =
    0 ^^^ Z.table 6 6 1 ^^^ Z.table 5 5 1 ^^^ Z.table 6 5 0 ^^^ Z.table 5 6 0 from rfl]
  simp only [show (Player.Black = Player.White) = False from by simp, if_false, Nat.xor_zero]
  ac_rfl

/-- The lifecycle invariant: boards produced by the documented call
sequences have no doubly-occupied cell and carry exactly the state hash. -/
theorem lifecycle_invariant {Z : Zobrist} {b : Board} (h : LifecycleReach Z b) :
    b.NoOverlap = true ∧ b.hashKey = zobristHashOf Z b := by
  induction h with
  | init => exact ⟨initial_noOverlap Z, initial_hash_inv Z⟩
  | make b x y hreach hmk ih =>
    have hf := Board.makeMove_fst Z b x y
    rw [hmk] at hf
    have hr : inRange x y = true := by
      rcases h1 : inRange x y
      · rw [h1] at hf; cases hf
      · rfl
    have ho : b.isOccupied x y = false := by
      rcases h2 : b.isOccupied x y
      · rfl
      · rw [hr, h2] at hf; cases hf
    exact ⟨noOverlap_makeMove hr ho ih.1, hash_inv_make hr ho ih.2⟩
  | undo b x y hreach hu ih =>
    exact ⟨noOverlap_unmakeMove hu.1 ih.1, hash_inv_undo hu ih.1 ih.2⟩

/-- C4: for any two boards produced by lifecycle call sequences (legal
`makeMove`s and contract-respecting `unmakeMove`s) that hold identical
stone placements on all cells and have the same side to move, the hash
keys agree: the hash is a pure function of (cell states, side to move). -/
theorem claim_C4 (Z : Zobrist) (b1 b2 : Board)
    (h1 : LifecycleReach Z b1) (h2 : LifecycleReach Z b2)
    (hc : ∀ x y : Int, b1.getCellState x y = b2.getCellState x y)
    (hs : b1.side_to_move = b2.side_to_move) :
    b1.hashKey = b2.hashKey :=
  ((lifecycle_invariant h1).2).trans
    ((zobristHashOf_congr hc hs).trans ((lifecycle_invariant h2).2).symm)

/-- Witness for C4: two different lifecycle call sequences (one including
an apply/undo detour through (9,9)) reach the same stone placement with
the same side to move, and the theorem yields equal hash keys. -/
theorem claim_C4_witness :
    ((((initialBoard Z0).makeMove Z0 0 0).2.makeMove Z0 1 0).2.makeMove Z0 2 0).2.hashKey =
      (((((((initialBoard Z0).makeMove Z0 0 0).2.makeMove Z0 1 0).2.makeMove Z0 9
        9).2.unmakeMove Z0 9 9).2.makeMove Z0 2 0).2).hashKey := by
  have r0 : LifecycleReach Z0 (initialBoard Z0) := .init
  have r1 := LifecycleReach.make (Z := Z0) _ 0 0 r0 (by decide)
  have r2 := LifecycleReach.make (Z := Z0) _ 1 0 r1 (by decide)
  have rA := LifecycleReach.make (Z := Z0) _ 2 0 r2 (by decide)
  have s3 := LifecycleReach.make (Z := Z0) _ 9 9 r2 (by decide)
  have s4 := LifecycleReach.undo (Z := Z0) _ 9 9 s3 (by constructor <;> decide)
  have sB := LifecycleReach.make (Z := Z0) _ 2 0 s4 (by decide)
  have heq :
      ((((initialBoard Z0).makeMove Z0 0 0).2.makeMove Z0 1 0).2.makeMove Z0 2 0).2 =
      (((((((initialBoard Z0).makeMove Z0 0 0).2.makeMove Z0 1 0).2.makeMove Z0 9
        9).2.unmakeMove Z0 9 9).2.makeMove Z0 2 0).2) := by decide
  exact claim_C4 Z0 _ _ rA sB (fun x y => by rw [heq]) (by rw [heq])

/-! ## Claim C5: checkWin characterization -/

theorem stoneAt_iff_hasStone {b : Board} {p : Player} {x y : Int}
    (hno : b.NoOverlap = true) (hr : inRange x y = true) :
    b.stoneAt p x y = true ↔ hasStone b p x y := by
  constructor
  · intro h
    rw [Board.stoneAt_eq hr] at h
    unfold hasStone
    rw [Board.getCellState_eq hr]
    rcases hp : p
    · rw [hp] at h
      simp [h]
    · rw [hp] at h
      have hnov := (noOverlap_iff.mp hno) x y hr
      rw [Board.stoneAt_eq hr, Board.stoneAt_eq hr] at hnov
      rcases hB : ((b.bbOf .Black).get (chunkOf (cellIndex x y))).testBit (offsetOf (cellIndex x y))
      · simp [hB, h]
      · exact absurd ⟨hB, h⟩ hnov
  · intro h
    obtain ⟨h1, _⟩ := hasStone_bits hr hno h
    rw [Board.stoneAt_eq hr]
    exact h1

theorem inRange_of_hasStone {b : Board} {p : Player} {x y : Int}
    (h : hasStone b p x y) : inRange x y = true := by
  unfold hasStone Board.getCellState at h
  rcases hr : inRange x y
  · rw [hr] at h
    simp only [Bool.false_eq_true] at h
    rcases hp : p <;> rw [hp] at h <;> simp at h
  · rfl

theorem walkCount_spec {b : Board} {p : Player} {dx dy : Int} :
    ∀ (fuel : Nat) (x y : Int) (i : Nat), i < walkCount (fun u v => b.stoneAt p u v) x y dx dy fuel →
      b.stoneAt p (x + (i : Int) * dx) (y + (i : Int) * dy) = true := by
  intro fuel
  induction fuel with
  | zero => intro x y i h; cases h
  | succ f ih =>
    intro x y i h
    unfold walkCount at h
    rcases hc : inRange x y && b.stoneAt p x y
    · rw [hc] at h; cases h
    · rw [hc] at h
      rcases i with _ | j
      · have := (Bool.and_eq_true _ _).mp hc
        simpa using this.2
      · rw [if_pos rfl] at h
        have hj : j < walkCount (fun u v => b.stoneAt p u v) (x + dx) (y + dy) dx dy f := by
          omega
        have := ih (x + dx) (y + dy) j hj
        have harith : x + dx + (j : Int) * dx = x + ((j + 1 : Nat) : Int) * dx := by
          push_cast
          ring
        have harith2 : y + dy + (j : Int) * dy = y + ((j + 1 : Nat) : Int) * dy := by
          push_cast
          ring
        rw [harith, harith2] at this
        exact this

theorem walkCount_ge {b : Board} {p : Player} {dx dy : Int} :
    ∀ (k fuel : Nat) (x y : Int), k ≤ fuel →
      (∀ i : Nat, i < k → inRange (x + (i : Int) * dx) (y + (i : Int) * dy) = true ∧
        b.stoneAt p (x + (i : Int) * dx) (y + (i : Int) * dy) = true) →
      k ≤ walkCount (fun u v => b.stoneAt p u v) x y dx dy fuel := by
  intro k
  induction k with
  | zero => intro fuel x y _ _; omega
  | succ j ih =>
    intro fuel x y hf hchain
    rcases fuel with _ | f
    · omega
    · have h0 := hchain 0 (by omega)
      simp only [Nat.cast_zero, zero_mul, add_zero] at h0
      unfold walkCount
      rw [h0.1, h0.2]
      simp only [Bool.and_self]
      have hrec : j ≤ walkCount (fun u v => b.stoneAt p u v) (x + dx) (y + dy) dx dy f := by
        apply ih f (x + dx) (y + dy) (by omega)
        intro i hi
        have := hchain (i + 1) (by omega)
        have harith : x + ((i + 1 : Nat) : Int) * dx = x + dx + (i : Int) * dx := by
          push_cast
          ring
        have harith2 : y + ((i + 1 : Nat) : Int) * dy = y + dy + (i : Int) * dy := by
          push_cast
          ring
        rw [harith, harith2] at this
        exact this
      simp only [if_true]
      omega

theorem stoneAt_inRange {b : Board} {p : Player} {x y : Int}
    (h : b.stoneAt p x y = true) : inRange x y = true := by
  unfold Board.stoneAt at h
  rcases hr : inRange x y
  · rw [hr] at h
    simp at h
  · rfl

/-- C5: `checkWin` is true exactly when the side has five contiguous
collinear stones along one of the four scan directions (for any board
without doubly-occupied cells, an invariant of every board the program
builds); in particular four in a row with a gap is not a win. -/
theorem claim_C5 (b : Board) (p : Player) (hno : b.NoOverlap = true) :
    b.checkWin p = true ↔ hasFiveInRow b p := by
  unfold Board.checkWin
  rw [List.any_eq_true]
  constructor
  · rintro ⟨c, hcmem, hcond⟩
    obtain ⟨hstone, hdir⟩ := Bool.and_eq_true .. ▸ hcond
    rw [List.any_eq_true] at hdir
    obtain ⟨d, hdmem, hge⟩ := hdir
    rw [decide_eq_true_eq] at hge
    set f := walkCount (fun u v => b.stoneAt p u v) (c.1 + d.1) (c.2 + d.2) d.1 d.2 12 with hf
    set w := walkCount (fun u v => b.stoneAt p u v) (c.1 - d.1) (c.2 - d.2) (-d.1) (-d.2) 12
      with hw
    refine ⟨c.1 - (w : Int) * d.1, c.2 - (w : Int) * d.2, d.1, d.2, by simpa using hdmem, ?_⟩
    intro i hi
    have hstone_i : b.stoneAt p (c.1 - (w : Int) * d.1 + (i : Int) * d.1)
        (c.2 - (w : Int) * d.2 + (i : Int) * d.2) = true := by
      rcases Nat.lt_trichotomy i w with hlt | heq | hgt
      · have hj : w - 1 - i < w := by omega
        have hs := @walkCount_spec b p (-d.1) (-d.2) 12 (c.1 - d.1) (c.2 - d.2) (w - 1 - i)
          (by rw [← hw]; omega)
        have hc1 : ((w - 1 - i : Nat) : Int) = (w : Int) - 1 - (i : Int) := by
          push_cast [Nat.sub_sub]
          omega
        have harith1 : c.1 - d.1 + ((w - 1 - i : Nat) : Int) * (-d.1) =
            c.1 - (w : Int) * d.1 + (i : Int) * d.1 := by
          rw [hc1]; ring
        have harith2 : c.2 - d.2 + ((w - 1 - i : Nat) : Int) * (-d.2) =
            c.2 - (w : Int) * d.2 + (i : Int) * d.2 := by
          rw [hc1]; ring
        rw [harith1, harith2] at hs
        exact hs
      · rw [heq]
        have harith1 : c.1 - (w : Int) * d.1 + (w : Int) * d.1 = c.1 := by ring
        have harith2 : c.2 - (w : Int) * d.2 + (w : Int) * d.2 = c.2 := by ring
        rw [harith1, harith2]
        exact hstone
      · have hj : i - w - 1 < f := by omega
        have hs := @walkCount_spec b p d.1 d.2 12 (c.1 + d.1) (c.2 + d.2) (i - w - 1)
          (by rw [← hf]; omega)
        have hc1 : ((i - w - 1 : Nat) : Int) = (i : Int) - (w : Int) - 1 := by
          push_cast [Nat.sub_sub]
          omega
        have harith1 : c.1 + d.1 + ((i - w - 1 : Nat) : Int) * d.1 =
            c.1 - (w : Int) * d.1 + (i : Int) * d.1 := by
          rw [hc1]; ring
        have harith2 : c.2 + d.2 + ((i - w - 1 : Nat) : Int) * d.2 =
            c.2 - (w : Int) * d.2 + (i : Int) * d.2 := by
          rw [hc1]; ring
        rw [harith1, harith2] at hs
        exact hs
    have hr_i := stoneAt_inRange hstone_i
    exact (stoneAt_iff_hasStone hno hr_i).mp hstone_i
  · rintro ⟨x, y, dx, dy, hdmem, hstones⟩
    have hr0 : inRange x y = true := by
      have := inRange_of_hasStone (hstones 0 (by omega))
      simpa using this
    have hstoneB : ∀ i : Nat, i < 5 → b.stoneAt p (x + (i : Int) * dx) (y + (i : Int) * dy) = true := by
      intro i hi
      have hh := hstones i hi
      exact (stoneAt_iff_hasStone hno (inRange_of_hasStone hh)).mpr hh
    refine ⟨(x, y), mem_allCells.mpr hr0, ?_⟩
    rw [Bool.and_eq_true]
    constructor
    · have := hstoneB 0 (by omega)
      simpa using this
    · rw [List.any_eq_true]
      refine ⟨(dx, dy), hdmem, ?_⟩
      show decide (5 ≤ 1 + walkCount (fun u v => b.stoneAt p u v) (x + dx) (y + dy) dx dy 12 +
        walkCount (fun u v => b.stoneAt p u v) (x - dx) (y - dy) (-dx) (-dy) 12) = true
      rw [decide_eq_true_eq]
      have hfwd : 4 ≤ walkCount (fun u v => b.stoneAt p u v) (x + dx) (y + dy) dx dy 12 := by
        apply walkCount_ge 4 12 (x + dx) (y + dy) (by omega)
        intro i hi
        have harith1 : x + dx + (i : Int) * dx = x + ((i + 1 : Nat) : Int) * dx := by
          push_cast; ring
        have harith2 : y + dy + (i : Int) * dy = y + ((i + 1 : Nat) : Int) * dy := by
          push_cast; ring
        rw [harith1, harith2]
        have hs := hstoneB (i + 1) (by omega)
        exact ⟨stoneAt_inRange hs, hs⟩
      omega

/-- Witness for C5: on a legally built board where Black holds
(0,0)..(4,0), the five-in-a-row predicate holds and the theorem yields
`checkWin Black = true`. -/
theorem claim_C5_witness : rowBoard.checkWin .Black = true :=
  (claim_C5 rowBoard .Black (by decide)).mpr
    ⟨0, 0, 1, 0, by decide, by decide⟩

/-! ## Claims C6 and C10: the threat solver -/

theorem sevLookup_sevSet_self (k : Nat) (v : Int) :
    ∀ m : SevMap, sevLookup k (sevSet k v m) = some v := by
  intro m
  induction m with
  | nil => simp [sevSet, sevLookup]
  | cons e rest ih =>
    obtain ⟨k0, v0⟩ := e
    by_cases h : k0 = k <;> simp [sevSet, sevLookup, h, ih]

theorem sevLookup_sevSet_ne (k k' : Nat) (v : Int) (hne : k' ≠ k) :
    ∀ m : SevMap, sevLookup k' (sevSet k v m) = sevLookup k' m := by
  have hne' : ¬k = k' := fun h => hne h.symm
  intro m
  induction m with
  | nil => simp [sevSet, sevLookup, hne']
  | cons e rest ih =>
    obtain ⟨k0, v0⟩ := e
    by_cases h0 : k0 = k
    · subst h0
      simp [sevSet, sevLookup, hne', ih]
    · by_cases h1 : k0 = k' <;> simp [sevSet, sevLookup, h0, h1, hne, hne', ih]

theorem sevLookup_addMoveIfStronger (x y : Int) (sev : Int) (m : SevMap) (k : Nat) :
    sevLookup k (addMoveIfStronger x y sev m) =
      if inRange x y = true ∧ coordKey x y = k then
        match sevLookup k m with
        | none => some sev
        | some v => some (max v sev)
      else sevLookup k m := by
  unfold addMoveIfStronger
  rcases hr : inRange x y
  · simp [hr]
  · simp only [hr, Bool.true_eq_false, if_false, true_and]
    by_cases hk : coordKey x y = k
    · subst hk
      rw [if_pos rfl]
      rcases hl : sevLookup (coordKey x y) m
      · simp only [hl]
        rw [sevLookup_sevSet_self]
      · rename_i v
        simp only [hl]
        by_cases hv : v < sev
        · rw [if_pos hv, sevLookup_sevSet_self]
          congr 1
          omega
        · rw [if_neg hv, hl]
          congr 1
          omega
    · rw [if_neg hk]
      rcases hl : sevLookup (coordKey x y) m
      · simp only [hl]
        rw [sevLookup_sevSet_ne _ _ _ fun h => hk h.symm]
      · rename_i v
        simp only [hl]
        by_cases hv : v < sev
        · rw [if_pos hv, sevLookup_sevSet_ne _ _ _ fun h => hk h.symm]
        · rw [if_neg hv]

theorem foldl_flatMap {α β γ : Type} (g : α → List β) (f : γ → β → γ) :
    ∀ (xs : List α) (init : γ),
      (xs.flatMap g).foldl f init = xs.foldl (fun acc x => (g x).foldl f acc) init := by
  intro xs
  induction xs with
  | nil => intro init; rfl
  | cons x rest ih =>
    intro init
    rw [List.flatMap_cons, List.foldl_append, List.foldl_cons, ih]

theorem combineMax_cons (o : Option Int) (v : Int) (vs : List Int) :
    combineMax o (v :: vs) =
      combineMax (match o with | none => some v | some w => some (max w v)) vs := rfl

theorem combineMax_someBase (vs : List Int) :
    ∀ w : Int, combineMax (some w) vs = some (vs.foldl max w) := by
  induction vs with
  | nil => intro w; rfl
  | cons v rest ih =>
    intro w
    rw [combineMax_cons]
    exact ih (max w v)

theorem foldl_max_spec (vs : List Int) : ∀ w : Int,
    (w ≤ vs.foldl max w) ∧ (∀ v ∈ vs, v ≤ vs.foldl max w) ∧
    (vs.foldl max w = w ∨ vs.foldl max w ∈ vs) := by
  induction vs with
  | nil =>
    intro w
    exact ⟨le_refl w, by simp, Or.inl rfl⟩
  | cons v rest ih =>
    intro w
    obtain ⟨h1, h2, h3⟩ := ih (max w v)
    rw [List.foldl_cons]
    refine ⟨le_trans (le_max_left w v) h1, ?_, ?_⟩
    · intro v' hv'
      rcases List.mem_cons.mp hv' with h | h
      · rw [h]
        exact le_trans (le_max_right w v) h1
      · exact h2 v' h
    · rcases h3 with h | h
      · rcases max_choice w v with hm | hm
        · exact Or.inl (h.trans hm)
        · exact Or.inr (List.mem_cons.mpr (Or.inl (h.trans hm)))
      · exact Or.inr (List.mem_cons.mpr (Or.inr h))

theorem combineMax_some (o : Option Int) (vs : List Int) (s : Int) :
    combineMax o vs = some s ↔
      ((o = some s ∨ s ∈ vs) ∧ (∀ w, o = some w → w ≤ s) ∧ (∀ v ∈ vs, v ≤ s)) := by
  rcases o with _ | w
  · rcases vs with _ | ⟨v, rest⟩
    · constructor
      · intro h; cases h
      · rintro ⟨h1 | h1, _, _⟩
        · cases h1
        · cases h1
    · rw [combineMax_cons]
      show combineMax (some v) rest = some s ↔ _
      rw [combineMax_someBase rest v]
      obtain ⟨h1, h2, h3⟩ := foldl_max_spec rest v
      constructor
      · intro h
        injection h with h
        subst h
        refine ⟨?_, ?_, ?_⟩
        · rcases h3 with h | h
          · exact Or.inr (List.mem_cons.mpr (Or.inl h))
          · exact Or.inr (List.mem_cons.mpr (Or.inr h))
        · rintro w hw
          cases hw
        · intro v' hv'
          rcases List.mem_cons.mp hv' with h | h
          · rw [h]
            exact h1
          · exact h2 v' h
      · rintro ⟨hmem, _, hub⟩
        congr 1
        have hle : rest.foldl max v ≤ s := by
          rcases h3 with h | h
          · rw [h]; exact hub v (List.mem_cons_self _ _)
          · exact hub _ (List.mem_cons_of_mem _ h)
        have hge : s ≤ rest.foldl max v := by
          rcases hmem with h | h
          · cases h
          · rcases List.mem_cons.mp h with h | h
            · subst h; exact h1
            · exact h2 s h
        omega
  · rw [combineMax_someBase vs w]
    obtain ⟨h1, h2, h3⟩ := foldl_max_spec vs w
    constructor
    · intro h
      injection h with h
      subst h
      refine ⟨?_, ?_, h2⟩
      · rcases h3 with h | h
        · exact Or.inl (by rw [h])
        · exact Or.inr h
      · intro w' hw'
        injection hw' with hw'
        subst hw'
        exact h1
    · rintro ⟨hmem, hbase, hub⟩
      congr 1
      have hle : vs.foldl max w ≤ s := by
        rcases h3 with h | h
        · rw [h]; exact hbase w rfl
        · exact hub _ h
      have hge : s ≤ vs.foldl max w := by
        rcases hmem with h | h
        · injection h with h; subst h; exact h1
        · exact h2 s h
      omega

theorem sevLookup_nomFold (ns : List ((Int × Int) × Int)) :
    ∀ (m : SevMap) (k : Nat),
      sevLookup k (ns.foldl (fun m n => addMoveIfStronger n.1.1 n.1.2 n.2 m) m) =
        combineMax (sevLookup k m)
          ((ns.filter fun n =>
            inRange n.1.1 n.1.2 && decide (coordKey n.1.1 n.1.2 = k)).map (·.2)) := by
  induction ns with
  | nil => intro m k; rfl
  | cons n rest ih =>
    intro m k
    rw [List.foldl_cons, ih]
    rcases hkeep : inRange n.1.1 n.1.2 && decide (coordKey n.1.1 n.1.2 = k)
    · simp only [List.filter_cons, hkeep, Bool.false_eq_true, if_false]
      congr 1
      rw [sevLookup_addMoveIfStronger, if_neg]
      intro hc
      rw [hc.1, decide_eq_true_eq.mpr hc.2] at hkeep
      simp at hkeep
    · simp only [List.filter_cons, hkeep, if_true, List.map_cons, combineMax_cons]
      congr 1
      obtain ⟨hc1, hc2⟩ := Bool.and_eq_true .. ▸ hkeep
      rw [decide_eq_true_eq] at hc2
      rw [sevLookup_addMoveIfStronger, if_pos ⟨hc1, hc2⟩]

theorem bestSeverity_flatten (b : Board) (defender : Player) :
    threatLineCtxs.foldl (fun m ctx => processLine (buildGrid b defender) ctx m) [] =
      (allNoms b defender).foldl (fun m n => addMoveIfStronger n.1.1 n.1.2 n.2 m) [] := by
  unfold allNoms
  rw [foldl_flatMap]
  apply List.foldl_ext
  intro m ctx _
  unfold processLine
  rw [foldl_flatMap]

theorem nominates_iff_mem {b : Board} {defender : Player} {cell : Int × Int} {s : Int} :
    nominates b defender cell s ↔ (cell, s) ∈ allNoms b defender := by
  unfold nominates allNoms
  rw [List.mem_flatMap]
  constructor
  · rintro ⟨ctx, hctx, i, hlen, hmem⟩
    exact ⟨ctx, hctx, List.mem_flatMap.mpr ⟨i, List.mem_range.mpr (by omega), hmem⟩⟩
  · rintro ⟨ctx, hctx, hmem⟩
    obtain ⟨i, hi, hmem⟩ := List.mem_flatMap.mp hmem
    rw [List.mem_range] at hi
    exact ⟨ctx, hctx, i, by omega, hmem⟩

theorem mem_intRange {lo hi z : Int} : z ∈ intRange lo hi ↔ lo ≤ z ∧ z ≤ hi := by
  unfold intRange
  rw [List.mem_map]
  constructor
  · rintro ⟨i, hi, rfl⟩
    rw [List.mem_range] at hi
    omega
  · rintro ⟨h1, h2⟩
    refine ⟨(z - lo).toNat, List.mem_range.mpr (by omega), by omega⟩

theorem threatLineCtxs_cell_inRange :
    ∀ ctx ∈ threatLineCtxs, ∀ o : Nat, o < ctx.length →
      inRange (ctx.cellXY o).1 (ctx.cellXY o).2 = true := by
  intro ctx hctx o ho
  unfold threatLineCtxs at hctx
  rw [inRange_iff]
  rcases List.mem_append.mp hctx with hc | hc4
  · rcases List.mem_append.mp hc with hc | hc3
    · rcases List.mem_append.mp hc with hc1 | hc2
      · obtain ⟨y, hy, rfl⟩ := List.mem_map.mp hc1
        rw [List.mem_range] at hy
        simp only [LineContext.cellXY] at *
        omega
      · obtain ⟨x, hx, rfl⟩ := List.mem_map.mp hc2
        rw [List.mem_range] at hx
        simp only [LineContext.cellXY] at *
        omega
    · obtain ⟨k, hk, rfl⟩ := List.mem_map.mp hc3
      rw [mem_intRange] at hk
      simp only [LineContext.cellXY] at *
      omega
  · obtain ⟨s', hs, rfl⟩ := List.mem_map.mp hc4
    rw [mem_intRange] at hs
    simp only [LineContext.cellXY] at *
    omega

theorem headD_mem_of_length_one {A : Type} {l : List A} (h : l.length = 1) (d : A) :
    l.headD d ∈ l := by
  obtain ⟨a, rfl⟩ := List.length_eq_one.mp h
  exact List.mem_cons_self _ _

theorem windowNoms_spec {grid : Int → Int → Int} {ctx : LineContext} {i : Nat}
    {cell : Int × Int} {s : Int} (hmem : (cell, s) ∈ windowNoms grid ctx i) :
    ∃ j : Nat, j < 5 ∧ cell = ctx.cellXY (i + j) ∧ grid cell.1 cell.2 = 0 := by
  unfold windowNoms at hmem
  simp only at hmem
  split at hmem
  · cases hmem
  · split at hmem
    · rename_i hc4
      obtain ⟨ha, he⟩ := Bool.and_eq_true .. ▸ hc4
      rw [decide_eq_true_eq] at he
      rw [List.mem_singleton, Prod.mk.injEq] at hmem
      obtain ⟨he1, he2⟩ := hmem
      have hmem2 := headD_mem_of_length_one he 0
      obtain ⟨hrange, hzero⟩ := List.mem_filter.mp hmem2
      rw [List.mem_range] at hrange
      rw [decide_eq_true_eq] at hzero
      refine ⟨_, hrange, he1, ?_⟩
      rw [he1]
      exact hzero
    · split at hmem
      · split at hmem
        · obtain ⟨o, ho, he⟩ := List.mem_map.mp hmem
          obtain ⟨hrange, hzero⟩ := List.mem_filter.mp ho
          rw [List.mem_range] at hrange
          rw [decide_eq_true_eq] at hzero
          rw [Prod.mk.injEq] at he
          obtain ⟨he1, he2⟩ := he
          refine ⟨o, hrange, he1.symm, ?_⟩
          rw [← he1]
          exact hzero
        · split at hmem
          · obtain ⟨o, ho, he⟩ := List.mem_map.mp hmem
            obtain ⟨hrange, hzero⟩ := List.mem_filter.mp ho
            rw [List.mem_range] at hrange
            rw [decide_eq_true_eq] at hzero
            rw [Prod.mk.injEq] at he
            obtain ⟨he1, he2⟩ := he
            refine ⟨o, hrange, he1.symm, ?_⟩
            rw [← he1]
            exact hzero
          · cases hmem
      · cases hmem

theorem coordKey_decode {x y : Int} (hr : inRange x y = true) :
    ((coordKey x y % 12 : Nat) : Int) = x ∧ ((coordKey x y / 12 : Nat) : Int) = y := by
  rw [inRange_iff] at hr
  unfold coordKey
  omega

theorem coordKey_inj {x y x' y' : Int} (hr : inRange x y = true)
    (hr' : inRange x' y' = true) (h : coordKey x y = coordKey x' y') :
    x = x' ∧ y = y' := by
  rw [inRange_iff] at hr hr'
  unfold coordKey at h
  omega

theorem sevSet_cons_eq {k k0 : Nat} {v v0 : Int} {rest : SevMap} (h : k0 = k) :
    sevSet k v ((k0, v0) :: rest) = (k, v) :: rest := by
  unfold sevSet
  rw [if_pos h]

theorem sevSet_cons_ne {k k0 : Nat} {v v0 : Int} {rest : SevMap} (h : ¬(k0 = k)) :
    sevSet k v ((k0, v0) :: rest) = (k0, v0) :: sevSet k v rest := by
  unfold sevSet
  rw [if_neg h]
  rcases rest with _ | ⟨⟨k1, v1⟩, r⟩ <;> rfl

theorem mem_keys_sevSet {k' k : Nat} {v : Int} :
    ∀ m : SevMap, k' ∈ (sevSet k v m).map (·.1) → k' ∈ m.map (·.1) ∨ k' = k := by
  intro m
  induction m with
  | nil =>
    intro h
    right
    simpa [sevSet] using h
  | cons e rest ih =>
    obtain ⟨k0, v0⟩ := e
    intro h
    by_cases h0 : k0 = k
    · rw [sevSet_cons_eq h0, List.map_cons, List.mem_cons] at h
      rcases h with h | h
      · exact Or.inr h
      · exact Or.inl (List.mem_cons_of_mem _ h)
    · rw [sevSet_cons_ne h0, List.map_cons, List.mem_cons] at h
      rcases h with h | h
      · exact Or.inl (List.mem_cons.mpr (Or.inl h))
      · rcases ih h with h' | h'
        · exact Or.inl (List.mem_cons_of_mem _ h')
        · exact Or.inr h'

theorem sevSet_nodupKeys {k : Nat} {v : Int} :
    ∀ m : SevMap, (m.map (·.1)).Nodup → ((sevSet k v m).map (·.1)).Nodup := by
  intro m
  induction m with
  | nil => intro _; simp [sevSet]
  | cons e rest ih =>
    obtain ⟨k0, v0⟩ := e
    intro hnd
    rw [List.map_cons, List.nodup_cons] at hnd
    obtain ⟨hk0, hrest⟩ := hnd
    by_cases h0 : k0 = k
    · rw [sevSet_cons_eq h0, List.map_cons, List.nodup_cons]
      subst h0
      exact ⟨hk0, hrest⟩
    · rw [sevSet_cons_ne h0, List.map_cons, List.nodup_cons]
      refine ⟨?_, ih hrest⟩
      intro hc
      rcases mem_keys_sevSet rest hc with h | h
      · exact hk0 h
      · exact h0 h

theorem mem_sevSet {k : Nat} {v : Int} {e : Nat × Int} :
    ∀ m : SevMap, e ∈ sevSet k v m → e ∈ m ∨ e = (k, v) := by
  intro m
  induction m with
  | nil =>
    intro h
    right
    simpa [sevSet] using h
  | cons e0 rest ih =>
    obtain ⟨k0, v0⟩ := e0
    intro h
    by_cases h0 : k0 = k
    · rw [sevSet_cons_eq h0, List.mem_cons] at h
      rcases h with h | h
      · exact Or.inr h
      · exact Or.inl (List.mem_cons_of_mem _ h)
    · rw [sevSet_cons_ne h0, List.mem_cons] at h
      rcases h with h | h
      · exact Or.inl (List.mem_cons.mpr (Or.inl h))
      · rcases ih h with h' | h'
        · exact Or.inl (List.mem_cons_of_mem _ h')
        · exact Or.inr h'

theorem mem_of_sevLookup {k : Nat} {v : Int} :
    ∀ m : SevMap, sevLookup k m = some v → (k, v) ∈ m := by
  intro m
  induction m with
  | nil => intro h; cases h
  | cons e rest ih =>
    obtain ⟨k0, v0⟩ := e
    intro h
    unfold sevLookup at h
    by_cases h0 : k0 = k
    · rw [if_pos h0] at h
      injection h with h
      exact List.mem_cons.mpr (Or.inl (by rw [h0, h]))
    · rw [if_neg h0] at h
      exact List.mem_cons_of_mem _ (ih h)

theorem sevLookup_of_mem {k : Nat} {v : Int} :
    ∀ m : SevMap, (m.map (·.1)).Nodup → (k, v) ∈ m → sevLookup k m = some v := by
  intro m
  induction m with
  | nil => intro _ h; cases h
  | cons e rest ih =>
    obtain ⟨k0, v0⟩ := e
    intro hnd hmem
    rw [List.map_cons, List.nodup_cons] at hnd
    obtain ⟨hk0, hrest⟩ := hnd
    rcases List.mem_cons.mp hmem with h | h
    · rw [Prod.mk.injEq] at h
      obtain ⟨h1, h2⟩ := h
      unfold sevLookup
      rw [if_pos h1.symm, h2]
    · have hk : k0 ≠ k := by
        intro he
        subst he
        exact hk0 (by simp only [List.mem_map]; exact ⟨(k0, v), h, rfl⟩)
      unfold sevLookup
      rw [if_neg hk]
      exact ih hrest h

theorem add_preserves_inv {x y : Int} {s : Int} {m : SevMap}
    (hnd : (m.map (·.1)).Nodup)
    (hrng : ∀ e ∈ m, ∃ u v : Int, inRange u v = true ∧ e.1 = coordKey u v) :
    ((addMoveIfStronger x y s m).map (·.1)).Nodup ∧
    (∀ e ∈ addMoveIfStronger x y s m, ∃ u v : Int, inRange u v = true ∧ e.1 = coordKey u v) := by
  unfold addMoveIfStronger
  rcases hr : inRange x y
  · rw [if_pos rfl]
    exact ⟨hnd, hrng⟩
  · rw [if_neg (by simp)]
    have hset : ((sevSet (coordKey x y) s m).map (·.1)).Nodup ∧
        (∀ e ∈ sevSet (coordKey x y) s m,
          ∃ u v : Int, inRange u v = true ∧ e.1 = coordKey u v) := by
      refine ⟨sevSet_nodupKeys m hnd, ?_⟩
      intro e he
      rcases mem_sevSet m he with h | h
      · exact hrng e h
      · exact ⟨x, y, hr, by rw [h]⟩
    rcases hl : sevLookup (coordKey x y) m
    · simp only [hl]
      exact hset
    · rename_i v
      simp only [hl]
      by_cases hv : v < s
      · rw [if_pos hv]
        exact hset
      · rw [if_neg hv]
        exact ⟨hnd, hrng⟩

theorem fold_preserves_inv (ns : List ((Int × Int) × Int)) :
    ∀ m : SevMap, (m.map (·.1)).Nodup →
      (∀ e ∈ m, ∃ u v : Int, inRange u v = true ∧ e.1 = coordKey u v) →
      ((ns.foldl (fun m n => addMoveIfStronger n.1.1 n.1.2 n.2 m) m).map (·.1)).Nodup ∧
      (∀ e ∈ ns.foldl (fun m n => addMoveIfStronger n.1.1 n.1.2 n.2 m) m,
        ∃ u v : Int, inRange u v = true ∧ e.1 = coordKey u v) := by
  induction ns with
  | nil => intro m h1 h2; exact ⟨h1, h2⟩
  | cons n rest ih =>
    intro m h1 h2
    rw [List.foldl_cons]
    obtain ⟨h1', h2'⟩ := add_preserves_inv h1 h2
    exact ih _ h1' h2'

theorem Board.isOccupied_false_iff {b : Board} {x y : Int} (hr : inRange x y = true) :
    b.isOccupied x y = false ↔ b.getCellState x y = 0 := by
  rw [Board.isOccupied_eq hr, Board.getCellState_eq hr]
  rcases hB : ((b.bbOf .Black).get (chunkOf (cellIndex x y))).testBit (offsetOf (cellIndex x y)) <;>
    rcases hW : ((b.bbOf .White).get (chunkOf (cellIndex x y))).testBit (offsetOf (cellIndex x y)) <;>
    simp

theorem Board.getCellState_cases {b : Board} {x y : Int} (hr : inRange x y = true) :
    b.getCellState x y = 0 ∨ b.getCellState x y = 1 ∨ b.getCellState x y = 2 := by
  rw [Board.getCellState_eq hr]
  rcases hB : ((b.bbOf .Black).get (chunkOf (cellIndex x y))).testBit (offsetOf (cellIndex x y)) <;>
    rcases hW : ((b.bbOf .White).get (chunkOf (cellIndex x y))).testBit (offsetOf (cellIndex x y)) <;>
    simp

theorem buildGrid_zero {b : Board} {defender : Player} {x y : Int}
    (hr : inRange x y = true) (h : buildGrid b defender x y = 0) :
    b.getCellState x y = 0 := by
  rcases Board.getCellState_cases (b := b) hr with hs | hs | hs
  · exact hs
  · exfalso
    rcases defender <;> simp_all [buildGrid, Player.flip]
  · exfalso
    rcases defender <;> simp_all [buildGrid, Player.flip]

theorem nominates_inRange {b : Board} {defender : Player} {cell : Int × Int} {s : Int}
    (h : nominates b defender cell s) : inRange cell.1 cell.2 = true := by
  obtain ⟨ctx, hctx, i, hlen, hmem⟩ := h
  obtain ⟨j, hj, hcell, _⟩ := windowNoms_spec hmem
  rw [hcell]
  exact threatLineCtxs_cell_inRange ctx hctx (i + j) (by omega)

theorem nominates_empty {b : Board} {defender : Player} {cell : Int × Int} {s : Int}
    (h : nominates b defender cell s) : b.getCellState cell.1 cell.2 = 0 := by
  have hr := nominates_inRange h
  obtain ⟨ctx, hctx, i, hlen, hmem⟩ := h
  obtain ⟨j, hj, hcell, hzero⟩ := windowNoms_spec hmem
  exact buildGrid_zero hr hzero

theorem mem_findBlockingMoves_iff (b : Board) (defender : Player) (mv : Move) (sev : Int) :
    ThreatMove.mk mv sev ∈ findBlockingMoves b defender ↔
      (nominates b defender (mv.x, mv.y) sev ∧
       ∀ s', nominates b defender (mv.x, mv.y) s' → s' ≤ sev) := by
  obtain ⟨mx, my⟩ := mv
  unfold findBlockingMoves
  rw [List.mem_insertionSort, List.mem_map]
  simp only
  rw [bestSeverity_flatten b defender]
  have hMinv := fold_preserves_inv (allNoms b defender) [] (by simp) (by simp)
  have hlook : ∀ k s,
      sevLookup k ((allNoms b defender).foldl
        (fun m n => addMoveIfStronger n.1.1 n.1.2 n.2 m) []) = some s ↔
      ((∃ n ∈ allNoms b defender,
          (inRange n.1.1 n.1.2 && decide (coordKey n.1.1 n.1.2 = k)) = true ∧ n.2 = s) ∧
       (∀ n ∈ allNoms b defender,
          (inRange n.1.1 n.1.2 && decide (coordKey n.1.1 n.1.2 = k)) = true → n.2 ≤ s)) := by
    intro k s
    rw [sevLookup_nomFold]
    have hnil : sevLookup k ([] : SevMap) = none := rfl
    rw [hnil, combineMax_some]
    constructor
    · rintro ⟨h1, _, h3⟩
      rcases h1 with h1 | h1
      · cases h1
      · obtain ⟨n, hn, hn2⟩ := List.mem_map.mp h1
        obtain ⟨hnmem, hpred⟩ := List.mem_filter.mp hn
        refine ⟨⟨n, hnmem, hpred, hn2⟩, ?_⟩
        intro n' hn' hpred'
        exact h3 n'.2 (List.mem_map.mpr ⟨n', List.mem_filter.mpr ⟨hn', hpred'⟩, rfl⟩)
    · rintro ⟨⟨n, hnmem, hpred, hn2⟩, hub⟩
      refine ⟨Or.inr (List.mem_map.mpr ⟨n, List.mem_filter.mpr ⟨hnmem, hpred⟩, hn2⟩),
        ?_, ?_⟩
      · rintro w hw
        cases hw
      · intro v hv
        obtain ⟨n', hn', hn'2⟩ := List.mem_map.mp hv
        obtain ⟨hnmem', hpred'⟩ := List.mem_filter.mp hn'
        rw [← hn'2]
        exact hub n' hnmem' hpred'
  constructor
  · rintro ⟨e, heM, heq⟩
    rw [ThreatMove.mk.injEq, Move.mk.injEq] at heq
    obtain ⟨⟨hex, hey⟩, hes⟩ := heq
    obtain ⟨u, v, huv, hk⟩ := hMinv.2 e heM
    obtain ⟨hdx, hdy⟩ := coordKey_decode huv
    have hmx : mx = u := by rw [← hex, hk, hdx]
    have hmy : my = v := by rw [← hey, hk, hdy]
    have hrm : inRange mx my = true := by rw [hmx, hmy]; exact huv
    have hke : e.1 = coordKey mx my := by rw [hk, hmx, hmy]
    have hlk := sevLookup_of_mem _ hMinv.1 (by
      show (e.1, e.2) ∈ _
      simpa using heM)
    rw [hlook e.1 e.2] at hlk
    obtain ⟨⟨n, hnmem, hpred, hn2⟩, hub⟩ := hlk
    obtain ⟨hnr, hnk⟩ := Bool.and_eq_true .. ▸ hpred
    rw [decide_eq_true_eq] at hnk
    rw [hke] at hnk
    obtain ⟨hn1, hn2'⟩ := coordKey_inj hnr hrm hnk
    have hneq : ((mx, my), sev) = n := by
      rw [← hn1, ← hn2', ← hes, ← hn2]
    constructor
    · exact nominates_iff_mem.mpr (hneq ▸ hnmem)
    · intro s' hnom'
      have hmem' := nominates_iff_mem.mp hnom'
      have hprd : (inRange mx my && decide (coordKey mx my = e.1)) = true := by
        rw [hrm, hke]
        simp
      have hle := hub ((mx, my), s') hmem' hprd
      rw [hes] at hle
      exact hle
  · rintro ⟨hnom, hub⟩
    have hrm : inRange mx my = true := nominates_inRange hnom
    have hlk : sevLookup (coordKey mx my) ((allNoms b defender).foldl
        (fun m n => addMoveIfStronger n.1.1 n.1.2 n.2 m) []) = some sev := by
      rw [hlook]
      refine ⟨⟨((mx, my), sev), nominates_iff_mem.mp hnom, ?_, rfl⟩, ?_⟩
      · rw [hrm]
        simp
      · intro n hn hpred
        obtain ⟨hnr, hnk⟩ := Bool.and_eq_true .. ▸ hpred
        rw [decide_eq_true_eq] at hnk
        obtain ⟨hn1, hn2'⟩ := coordKey_inj hnr hrm hnk
        apply hub
        apply nominates_iff_mem.mpr
        have hneq : ((mx, my), n.2) = n := by
          rw [← hn1, ← hn2']
        rw [hneq]
        exact hn
    have hmem := mem_of_sevLookup _ hlk
    refine ⟨(coordKey mx my, sev), hmem, ?_⟩
    obtain ⟨hdx, hdy⟩ := coordKey_decode hrm
    rw [ThreatMove.mk.injEq, Move.mk.injEq]
    exact ⟨⟨hdx, hdy⟩, rfl⟩

theorem findBlockingMoves_sorted (b : Board) (defender : Player) :
    List.Pairwise (fun a c : ThreatMove => c.severity ≤ a.severity)
      (findBlockingMoves b defender) := by
  unfold findBlockingMoves
  simp only
  exact List.sorted_insertionSort _ _

/-- C6: a cell appears in `findBlockingMoves` exactly when some length-5
window nominates it (per the window classification of `processLine`: a
defender-free window with 4 attacker stones and 1 empty nominates its
lone empty at 1,000,000 when both window ends are open and 500,000
otherwise; 3 attacker stones and 2 empties nominate both empties at
120,000 / 60,000 for two / one open ends and nothing with none), its
recorded severity is the maximum over all windows nominating it, and the
returned list is sorted in descending severity. -/
theorem claim_C6 (b : Board) (defender : Player) :
    (∀ (mv : Move) (sev : Int),
      ThreatMove.mk mv sev ∈ findBlockingMoves b defender ↔
        (nominates b defender (mv.x, mv.y) sev ∧
         ∀ s', nominates b defender (mv.x, mv.y) s' → s' ≤ sev)) ∧
    List.Pairwise (fun a c : ThreatMove => c.severity ≤ a.severity)
      (findBlockingMoves b defender) :=
  ⟨mem_findBlockingMoves_iff b defender, findBlockingMoves_sorted b defender⟩

/-- Witness for C6: on a legally built board where White has an open four
at (3,0)..(6,0), the returned block at (2,0) with severity 1,000,000 is
characterized by the theorem. -/
theorem claim_C6_witness :
    nominates threatBoard .Black (2, 0) 1000000 ∧
    ∀ s', nominates threatBoard .Black (2, 0) s' → s' ≤ 1000000 :=
  ((claim_C6 threatBoard .Black).1 ⟨2, 0⟩ 1000000).mp (by decide)

/-- C10: every threat move returned by `findBlockingMoves` names an
on-board cell that is empty on the input board. -/
theorem claim_C10 (b : Board) (defender : Player) (tm : ThreatMove)
    (h : tm ∈ findBlockingMoves b defender) :
    inRange tm.move.x tm.move.y = true ∧ b.isOccupied tm.move.x tm.move.y = false := by
  obtain ⟨mv, s⟩ := tm
  obtain ⟨hnom, _⟩ := (mem_findBlockingMoves_iff b defender mv s).mp h
  have hr : inRange mv.x mv.y = true := nominates_inRange hnom
  have hempty : b.getCellState mv.x mv.y = 0 := nominates_empty hnom
  exact ⟨hr, (Board.isOccupied_false_iff hr).mpr hempty⟩

/-- Witness for C10: the open-four block at (7,0) on the same board is
on-board and empty. -/
theorem claim_C10_witness :
    inRange (ThreatMove.mk ⟨7, 0⟩ 1000000).move.x (ThreatMove.mk ⟨7, 0⟩ 1000000).move.y = true ∧
    threatBoard.isOccupied (ThreatMove.mk ⟨7, 0⟩ 1000000).move.x
      (ThreatMove.mk ⟨7, 0⟩ 1000000).move.y = false :=
  claim_C10 threatBoard .Black (ThreatMove.mk ⟨7, 0⟩ 1000000) (by decide)

/-! ## Candidate and legal move properties -/

theorem getLegalMoves_spec {b : Board} {m : Move} (h : m ∈ b.getLegalMoves) :
    inRange m.x m.y = true ∧ b.isOccupied m.x m.y = false := by
  unfold Board.getLegalMoves at h
  obtain ⟨c, hc, he⟩ := List.mem_map.mp h
  obtain ⟨hmem, hocc⟩ := List.mem_filter.mp hc
  obtain ⟨cx, cy⟩ := c
  have hr := mem_allCells.mp hmem
  rw [← he]
  simp only
  rw [Bool.not_eq_true'] at hocc
  exact ⟨hr, hocc⟩

theorem candBox_found (b : Board) :
    ∀ (l : List (Int × Int)) (st : Bool × Int × Int × Int × Int),
      (l.foldl (fun (st : Bool × Int × Int × Int × Int) c =>
        let (found, min_x, max_x, min_y, max_y) := st
        if b.isOccupied c.1 c.2 then
          (true, min min_x c.1, max max_x c.1, min min_y c.2, max max_y c.2)
        else st) st).1 = (st.1 || l.any fun c => b.isOccupied c.1 c.2) := by
  intro l
  induction l with
  | nil => intro st; simp
  | cons c rest ih =>
    intro st
    rw [List.foldl_cons, List.any_cons]
    rcases hocc : b.isOccupied c.1 c.2
    · rw [ih]
      obtain ⟨f, a1, a2, a3, a4⟩ := st
      simp [hocc]
    · rw [ih]
      obtain ⟨f, a1, a2, a3, a4⟩ := st
      simp [hocc]

theorem getCandidateMoves_spec {b : Board} {m : Move} (h : m ∈ b.getCandidateMoves) :
    inRange m.x m.y = true ∧ b.isOccupied m.x m.y = false := by
  unfold Board.getCandidateMoves at h
  simp only at h
  rcases hfound : (allCells.foldl (fun (st : Bool × Int × Int × Int × Int) c =>
      let (found, min_x, max_x, min_y, max_y) := st
      if b.isOccupied c.1 c.2 then
        (true, min min_x c.1, max max_x c.1, min min_y c.2, max max_y c.2)
      else st) (false, 12, -1, 12, -1)).1
  · -- empty board: the single centre cell, which is unoccupied
    rw [hfound] at h
    rw [if_pos rfl] at h
    have hany := candBox_found b allCells (false, 12, -1, 12, -1)
    rw [hfound] at hany
    have hnone : ∀ c ∈ allCells, b.isOccupied c.1 c.2 = false := by
      intro c hc
      rcases hco : b.isOccupied c.1 c.2
      · rfl
      · exfalso
        have : allCells.any (fun c => b.isOccupied c.1 c.2) = true :=
          List.any_eq_true.mpr ⟨c, hc, hco⟩
        rw [this] at hany
        simp at hany
    rw [List.mem_singleton] at h
    subst h
    exact ⟨by decide, hnone (5, 5) (by decide)⟩
  · rw [hfound] at h
    rw [if_neg (by simp)] at h
    split at h
    · -- fallback to all legal moves
      exact getLegalMoves_spec h
    · obtain ⟨y, hy, hx⟩ := List.mem_flatMap.mp h
      obtain ⟨x, hxm, hsome⟩ := List.mem_filterMap.mp hx
      rw [mem_intRange] at hy hxm
      rcases hocc : b.isOccupied x y
      · rw [hocc] at hsome
        rw [if_neg (by simp)] at hsome
        split at hsome
        · injection hsome with hsome
          subst hsome
          simp only
          refine ⟨?_, hocc⟩
          rw [inRange_iff]
          omega
        · cases hsome
      · rw [hocc] at hsome
        rw [if_pos rfl] at hsome
        cases hsome

/-! ## Well-formedness preservation -/

theorem Board.Wf_iff {b : Board} :
    b.Wf ↔ ∀ (p : Player) (c : Nat), c < 3 → (b.bbOf p).get c < 2 ^ 64 := by
  constructor
  · intro h p c hc
    obtain ⟨h1, h2, h3, h4, h5, h6⟩ := h
    rcases p <;> interval_cases c <;>
      simp_all [Board.bbOf, Bitboards.get]
  · intro h
    exact ⟨h .Black 0 (by norm_num), h .Black 1 (by norm_num), h .Black 2 (by norm_num),
           h .White 0 (by norm_num), h .White 1 (by norm_num), h .White 2 (by norm_num)⟩

theorem Board.Wf_makeMove {Z : Zobrist} {b : Board} (x y : Int) (hwf : b.Wf) :
    (b.makeMove Z x y).2.Wf := by
  rcases hr : inRange x y
  · rw [Board.makeMove_fail (Or.inl hr)]; exact hwf
  · rcases ho : b.isOccupied x y
    · have hc3 : chunkOf (cellIndex x y) < 3 := chunkOf_lt (cellIndex_lt hr)
      have hoff : offsetOf (cellIndex x y) < 64 := offsetOf_lt _
      rw [Board.Wf_iff]
      intro p c hc
      by_cases hp : p = b.side_to_move
      · subst hp
        rw [Board.makeMove_bbOf_self hr ho]
        by_cases hcc : c = chunkOf (cellIndex x y)
        · rw [hcc, Bitboards.get_set_self _ _ hc3]
          have h1 : (b.bbOf b.side_to_move).get (chunkOf (cellIndex x y)) < 2 ^ 64 :=
            Board.Wf_iff.mp hwf _ _ hc3
          have h2 : (1 <<< offsetOf (cellIndex x y)) < 2 ^ 64 := by
            rw [Nat.shiftLeft_eq, one_mul]
            exact Nat.pow_lt_pow_right (by norm_num) hoff
          exact Nat.or_lt_two_pow h1 h2
        · rw [Bitboards.get_set_ne _ _ hc3 hc hcc]
          exact Board.Wf_iff.mp hwf _ _ hc
      · rw [Board.makeMove_bbOf_ne hr ho hp]
        exact Board.Wf_iff.mp hwf _ _ hc
    · rw [Board.makeMove_fail (Or.inr ho)]; exact hwf

/-! ## Board restoration through move ordering -/

theorem foldl_snd_fixed {σ : Type} (f : σ × Board → Move → σ × Board) (b : Board) :
    ∀ (ms : List Move), (∀ m ∈ ms, ∀ a : σ, (f (a, b) m).2 = b) →
      ∀ a : σ, (ms.foldl f (a, b)).2 = b := by
  intro ms
  induction ms with
  | nil => intro _ a; rfl
  | cons m rest ih =>
    intro h a
    rw [List.foldl_cons]
    have hb := h m (List.mem_cons_self ..) a
    rcases hf : f (a, b) m with ⟨a', b'⟩
    rw [hf] at hb
    simp only at hb
    subst hb
    exact ih (fun m' hm' => h m' (List.mem_cons_of_mem _ hm')) a'

theorem match_pair_snd {α β γ : Type} (e : α × β) (g : α → β → γ) :
    (match e with | (x, y) => (g x y, y)).2 = e.2 := by
  rcases e with ⟨x, y⟩
  rfl

theorem orderStep_board {Z : Zobrist} {b : Board} (cur opp my : Player) (ply : Nat)
    (s : Eng) (dl : SevMap) {m : Move} (hwf : b.Wf)
    (hr : inRange m.x m.y = true) (ho : b.isOccupied m.x m.y = false)
    (a : List (Int × Move)) :
    (orderStep Z cur opp my ply s dl (a, b) m).2 = b := by
  unfold orderStep
  simp only
  rcases hmk : b.makeMove Z m.x m.y with ⟨ok, b1⟩
  have hun := Board.unmake_make (Z := Z) hwf hr ho
  rw [hmk] at hun
  simp only at hun
  simp only
  rcases hum : b1.unmakeMove Z m.x m.y with ⟨ok2, b2⟩
  rw [hum] at hun
  simp only [Prod.mk.injEq] at hun
  simp only
  exact hun.2

theorem orderStep_fst (Z : Zobrist) (cur opp my : Player) (ply : Nat)
    (s : Eng) (dl : SevMap) (a : List (Int × Move)) (b : Board) (m : Move) :
    ∃ v, (orderStep Z cur opp my ply s dl (a, b) m).1 = a ++ [(v, m)] := by
  unfold orderStep
  simp only
  rcases hmk : b.makeMove Z m.x m.y with ⟨ok, b1⟩
  simp only
  rcases hum : b1.unmakeMove Z m.x m.y with ⟨ok2, b2⟩
  exact ⟨_, rfl⟩

theorem orderMoves_board {Z : Zobrist} {b : Board} (cur my : Player) (ply : Nat)
    (s : Eng) (hwf : b.Wf) : (orderMoves Z b cur my ply s).2 = b := by
  unfold orderMoves
  simp only
  have key := foldl_snd_fixed (orderStep Z cur cur.flip my ply s (defensiveLookupOf b cur))
    b b.getCandidateMoves
    (fun m hm a =>
      orderStep_board cur cur.flip my ply s (defensiveLookupOf b cur) hwf
        (getCandidateMoves_spec hm).1 (getCandidateMoves_spec hm).2 a) []
  rcases hfold : List.foldl (orderStep Z cur cur.flip my ply s (defensiveLookupOf b cur))
      ([], b) b.getCandidateMoves with ⟨scored, b2⟩
  rw [hfold] at key
  simp only [hfold]
  exact key

theorem foldl_fst_append (f : List (Int × Move) × Board → Move → List (Int × Move) × Board)
    (hf : ∀ a b m, ∃ v, (f (a, b) m).1 = a ++ [(v, m)]) :
    ∀ (ms : List Move) (a : List (Int × Move)) (b : Board) (p : Int × Move),
      p ∈ (ms.foldl f (a, b)).1 → p ∈ a ∨ p.2 ∈ ms := by
  intro ms
  induction ms with
  | nil => intro a b p hp; exact Or.inl hp
  | cons m rest ih =>
    intro a b p hp
    rw [List.foldl_cons] at hp
    obtain ⟨v, hv⟩ := hf a b m
    rcases hf2 : f (a, b) m with ⟨a', b'⟩
    rw [hf2] at hv hp
    simp only at hv
    subst hv
    rcases ih _ _ p hp with h | h
    · rcases List.mem_append.mp h with h | h
      · exact Or.inl h
      · rw [List.mem_singleton] at h
        subst h
        exact Or.inr (List.mem_cons_self ..)
    · exact Or.inr (List.mem_cons_of_mem _ h)

theorem orderMoves_subset {Z : Zobrist} {b : Board} {cur my : Player} {ply : Nat}
    {s : Eng} {m : Move} (hm : m ∈ (orderMoves Z b cur my ply s).1) :
    m ∈ b.getCandidateMoves := by
  unfold orderMoves at hm
  simp only at hm
  rcases hfold : List.foldl (orderStep Z cur cur.flip my ply s (defensiveLookupOf b cur))
      ([], b) b.getCandidateMoves with ⟨scored, b2⟩
  rw [hfold] at hm
  simp only at hm
  obtain ⟨p, hp, hpe⟩ := List.mem_map.mp hm
  have hp2 : p ∈ scored := (List.perm_insertionSort _ _).mem_iff.mp hp
  have := foldl_fst_append _ (fun a bb m => orderStep_fst Z cur cur.flip my ply s
    (defensiveLookupOf b cur) a bb m) b.getCandidateMoves [] b p
  rw [hfold] at this
  rcases this hp2 with h | h
  · cases h
  · rw [hpe] at h
    exact h

/-! ## Board restoration through the search -/

theorem abLoopMax_board {Z : Zobrist} {clk : Nat → Bool}
    {rec : Board → Int → Int → Eng → Int × Board × Eng} {depth ply : Nat}
    (hrec : ∀ (b' : Board) (α β : Int) (s' : Eng), b'.Wf → (rec b' α β s').2.1 = b') :
    ∀ (ms : List Move) (bv : Int) (bm : Move) (α β : Int) (b : Board) (s : Eng),
      b.Wf → (∀ m ∈ ms, inRange m.x m.y = true ∧ b.isOccupied m.x m.y = false) →
      (abLoopMax Z clk rec depth ply ms bv bm α β b s).2.1 = b := by
  intro ms
  induction ms with
  | nil => intro bv bm α β b s _ _; rfl
  | cons m rest ih =>
    intro bv bm α β b s hwf hms
    obtain ⟨hr, ho⟩ := hms m (List.mem_cons_self ..)
    unfold abLoopMax
    rcases hp1 : pollTime clk s with ⟨t, s1⟩
    simp only
    rcases t
    · simp only [Bool.false_eq_true, if_false]
      rcases hmk : b.makeMove Z m.x m.y with ⟨ok, b1⟩
      have hwf1 : b1.Wf := by
        have := Board.Wf_makeMove (Z := Z) (b := b) m.x m.y hwf
        rw [hmk] at this
        exact this
      rcases hrc : rec b1 α β s1 with ⟨val, b2, s2⟩
      have hb2 : b2 = b1 := by
        have := hrec b1 α β s1 hwf1
        rw [hrc] at this
        exact this
      subst hb2
      have hun := Board.unmake_make (Z := Z) hwf hr ho
      rw [hmk] at hun
      simp only at hun
      rcases hum : b2.unmakeMove Z m.x m.y with ⟨ok2, b3⟩
      rw [hum] at hun
      simp only [Prod.mk.injEq] at hun
      have hb3 : b3 = b := hun.2
      subst hb3
      rcases hp2 : pollTime clk s2 with ⟨t2, s3⟩
      simp only
      rcases t2
      · simp only [Bool.false_eq_true, if_false]
        split <;> split <;> split <;>
          first
            | rfl
            | exact ih _ _ _ _ _ _ hwf
                (fun m' hm' => hms m' (List.mem_cons_of_mem _ hm'))
      · simp only [if_true]
    · simp only [if_true]

theorem abLoopMin_board {Z : Zobrist} {clk : Nat → Bool}
    {rec : Board → Int → Int → Eng → Int × Board × Eng} {depth ply : Nat}
    (hrec : ∀ (b' : Board) (α β : Int) (s' : Eng), b'.Wf → (rec b' α β s').2.1 = b') :
    ∀ (ms : List Move) (bv : Int) (bm : Move) (α β : Int) (b : Board) (s : Eng),
      b.Wf → (∀ m ∈ ms, inRange m.x m.y = true ∧ b.isOccupied m.x m.y = false) →
      (abLoopMin Z clk rec depth ply ms bv bm α β b s).2.1 = b := by
  intro ms
  induction ms with
  | nil => intro bv bm α β b s _ _; rfl
  | cons m rest ih =>
    intro bv bm α β b s hwf hms
    obtain ⟨hr, ho⟩ := hms m (List.mem_cons_self ..)
    unfold abLoopMin
    rcases hp1 : pollTime clk s with ⟨t, s1⟩
    simp only
    rcases t
    · simp only [Bool.false_eq_true, if_false]
      rcases hmk : b.makeMove Z m.x m.y with ⟨ok, b1⟩
      have hwf1 : b1.Wf := by
        have := Board.Wf_makeMove (Z := Z) (b := b) m.x m.y hwf
        rw [hmk] at this
        exact this
      rcases hrc : rec b1 α β s1 with ⟨val, b2, s2⟩
      have hb2 : b2 = b1 := by
        have := hrec b1 α β s1 hwf1
        rw [hrc] at this
        exact this
      subst hb2
      have hun := Board.unmake_make (Z := Z) hwf hr ho
      rw [hmk] at hun
      simp only at hun
      rcases hum : b2.unmakeMove Z m.x m.y with ⟨ok2, b3⟩
      rw [hum] at hun
      simp only [Prod.mk.injEq] at hun
      have hb3 : b3 = b := hun.2
      subst hb3
      rcases hp2 : pollTime clk s2 with ⟨t2, s3⟩
      simp only
      rcases t2
      · simp only [Bool.false_eq_true, if_false]
        split <;> split <;> split <;>
          first
            | rfl
            | exact ih _ _ _ _ _ _ hwf
                (fun m' hm' => hms m' (List.mem_cons_of_mem _ hm'))
      · simp only [if_true]
    · simp only [if_true]

theorem abStore_board (key dp : Nat) (aO bO : Int) (e : LoopOut × Board × Eng) :
    (abStore key dp aO bO e).2.1 = e.2.1 := by
  rcases e with ⟨out, b, s⟩
  rcases out <;> rfl

set_option maxHeartbeats 1600000

theorem alphaBeta_board {Z : Zobrist} {clk : Nat → Bool} :
    ∀ (depth : Nat) (b : Board) (al be : Int) (cur my : Player) (ply : Nat) (s : Eng),
      b.Wf → (alphaBeta Z clk depth b al be cur my ply s).2.1 = b := by
  intro depth
  induction depth with
  | zero =>
    intro b al be cur my ply s hwf
    unfold alphaBeta
    rcases pollTime clk s with ⟨t, s1⟩
    rcases t
    · simp only [Bool.false_eq_true, if_false]
      split
      · rfl
      · split
        · rfl
        · rfl
    · simp only [if_true]
  | succ d ih =>
    intro b al be cur my ply s hwf
    unfold alphaBeta
    rcases pollTime clk s with ⟨t, s1⟩
    rcases t
    · simp only [Bool.false_eq_true, if_false]
      split
      · rfl
      · split
        · rfl
        · rcases hpr : ttProbe (d + 1) al be (s1.transTable b.hashKey) with ⟨cut, aO, bO⟩
          rcases cut with _ | score
        
          · simp only
            split
            · rfl
            · rcases hom : orderMoves Z b cur my ply s1 with ⟨ordered, b2⟩
              have hb2 : b2 = b := by
                have := orderMoves_board (Z := Z) cur my ply s1 hwf
                rw [hom] at this
                exact this
              subst hb2
              simp only
              have hord : ∀ m ∈ ordered,
                  inRange m.x m.y = true ∧ b2.isOccupied m.x m.y = false := by
                intro m hm
                have hmm : m ∈ (orderMoves Z b2 cur my ply s1).1 := by
                  rw [hom]
                  exact hm
                exact getCandidateMoves_spec (orderMoves_subset hmm)
              rw [abStore_board]
              split
              · exact abLoopMax_board
                  (fun b' a' b'' s' hw => ih b' a' b'' cur.flip my (ply + 1) s' hw)
                  ordered INT_MIN ⟨-1, -1⟩ aO bO b2 s1 hwf hord
              · exact abLoopMin_board
                  (fun b' a' b'' s' hw => ih b' a' b'' cur.flip my (ply + 1) s' hw)
                  ordered INT_MAX ⟨-1, -1⟩ aO bO b2 s1 hwf hord
          · rfl
    · simp only [if_true]

theorem blockStep_board {Z : Zobrist} {b : Board} (my : Player) {m : Move}
    (hwf : b.Wf) (hr : inRange m.x m.y = true) (ho : b.isOccupied m.x m.y = false)
    (bb : Move) (v : Int) :
    (blockStep Z my (bb, v, b) m).2.2 = b := by
  unfold blockStep
  simp only
  rcases hmk : b.makeMove Z m.x m.y with ⟨ok, b1⟩
  have hun := Board.unmake_make (Z := Z) hwf hr ho
  rw [hmk] at hun
  simp only at hun
  simp only
  rcases hum : b1.unmakeMove Z m.x m.y with ⟨ok2, b2⟩
  rw [hum] at hun
  simp only [Prod.mk.injEq] at hun
  split <;> exact hun.2

theorem blockFold_board {Z : Zobrist} {b : Board} (my : Player) (hwf : b.Wf) :
    ∀ (ws : List Move), (∀ m ∈ ws, inRange m.x m.y = true ∧ b.isOccupied m.x m.y = false) →
      ∀ (bb : Move) (v : Int),
      (ws.foldl (blockStep Z my) (bb, v, b)).2.2 = b := by
  intro ws
  induction ws with
  | nil => intro _ bb v; rfl
  | cons m rest ih =>
    intro h bb v
    rw [List.foldl_cons]
    obtain ⟨hr, ho⟩ := h m (List.mem_cons_self ..)
    have hstep := blockStep_board (Z := Z) my hwf hr ho bb v
    rcases hf : blockStep Z my (bb, v, b) m with ⟨bb', v', b'⟩
    rw [hf] at hstep
    simp only at hstep
    subst hstep
    exact ih (fun m' hm' => h m' (List.mem_cons_of_mem _ hm')) bb' v'

theorem rootSweep_board {Z : Zobrist} {clk : Nat → Bool} {depth : Nat} {my : Player} :
    ∀ (ms : List Move) (curBest : Move) (curVal : Int) (b : Board) (s : Eng),
      b.Wf → (∀ m ∈ ms, inRange m.x m.y = true ∧ b.isOccupied m.x m.y = false) →
      (rootSweep Z clk depth my ms curBest curVal b s).2.1 = b := by
  intro ms
  induction ms with
  | nil => intro curBest curVal b s _ _; rfl
  | cons m rest ih =>
    intro curBest curVal b s hwf hms
    obtain ⟨hr, ho⟩ := hms m (List.mem_cons_self ..)
    unfold rootSweep
    rcases pollTime clk s with ⟨t, s1⟩
    rcases t
    · simp only [Bool.false_eq_true, if_false]
      rcases hmk : b.makeMove Z m.x m.y with ⟨ok, b1⟩
      have hwf1 : b1.Wf := by
        have := Board.Wf_makeMove (Z := Z) (b := b) m.x m.y hwf
        rw [hmk] at this
        exact this
      rcases hrc : alphaBeta Z clk (depth - 1) b1 (INT_MIN + 1) (INT_MAX - 1)
          my.flip my 1 s1 with ⟨val, b2, s2⟩
      have hb2 : b2 = b1 := by
        have := @alphaBeta_board Z clk (depth - 1) b1 (INT_MIN + 1)
          (INT_MAX - 1) my.flip my 1 s1 hwf1
        rw [hrc] at this
        exact this
      subst hb2
      have hun := Board.unmake_make (Z := Z) hwf hr ho
      rw [hmk] at hun
      simp only at hun
      rcases hum : b2.unmakeMove Z m.x m.y with ⟨ok2, b3⟩
      rw [hum] at hun
      simp only [Prod.mk.injEq] at hun
      have hb3 : b3 = b := hun.2
      subst hb3
      rcases pollTime clk s2 with ⟨t2, s3⟩
      rcases t2
      · simp only [Bool.false_eq_true, if_false]
        split
        · rfl
        · split
          · exact ih _ _ _ _ hwf (fun m' hm' => hms m' (List.mem_cons_of_mem _ hm'))
          · exact ih _ _ _ _ hwf (fun m' hm' => hms m' (List.mem_cons_of_mem _ hm'))
      · simp only [if_true]
    · simp only [if_true]

theorem rescoreRoots_board {Z : Zobrist} {clk : Nat → Bool} {depth : Nat} {my : Player} :
    ∀ (ms : List Move) (b : Board) (s : Eng),
      b.Wf → (∀ m ∈ ms, inRange m.x m.y = true ∧ b.isOccupied m.x m.y = false) →
      (rescoreRoots Z clk depth my ms b s).2.1 = b := by
  intro ms
  induction ms with
  | nil => intro b s _ _; rfl
  | cons m rest ih =>
    intro b s hwf hms
    obtain ⟨hr, ho⟩ := hms m (List.mem_cons_self ..)
    unfold rescoreRoots
    rcases hmk : b.makeMove Z m.x m.y with ⟨ok, b1⟩
    simp only
    have hwf1 : b1.Wf := by
      have := Board.Wf_makeMove (Z := Z) (b := b) m.x m.y hwf
      rw [hmk] at this
      exact this
    rcases hrc : alphaBeta Z clk (depth - 1) b1 (INT_MIN + 1) (INT_MAX - 1)
        my.flip my 1 s with ⟨val, b2, s2⟩
    simp only
    have hb2 : b2 = b1 := by
      have := @alphaBeta_board Z clk (depth - 1) b1 (INT_MIN + 1)
        (INT_MAX - 1) my.flip my 1 s hwf1
      rw [hrc] at this
      exact this
    subst hb2
    have hun := Board.unmake_make (Z := Z) hwf hr ho
    rw [hmk] at hun
    simp only at hun
    rcases hum : b2.unmakeMove Z m.x m.y with ⟨ok2, b3⟩
    simp only
    rw [hum] at hun
    simp only [Prod.mk.injEq] at hun
    rcases hun with ⟨hok2, hb3⟩
    subst hb3
    have hrest := ih b3 s2 hwf (fun m' hm' => hms m' (List.mem_cons_of_mem _ hm'))
    rcases hrr : rescoreRoots Z clk depth my rest b3 s2 with ⟨scored, b4, s4⟩
    simp only
    rw [hrr] at hrest
    simp only at hrest
    exact hrest

theorem rescoreRoots_mem {Z : Zobrist} {clk : Nat → Bool} {depth : Nat} {my : Player} :
    ∀ (ms : List Move) (b : Board) (s : Eng) (p : Int × Move),
      p ∈ (rescoreRoots Z clk depth my ms b s).1 → p.2 ∈ ms := by
  intro ms
  induction ms with
  | nil => intro b s p hp; cases hp
  | cons m rest ih =>
    intro b s p hp
    unfold rescoreRoots at hp
    rcases hmk : b.makeMove Z m.x m.y with ⟨ok, b1⟩
    rw [hmk] at hp
    simp only at hp
    rcases hrc : alphaBeta Z clk (depth - 1) b1 (INT_MIN + 1) (INT_MAX - 1)
        my.flip my 1 s with ⟨val, b2, s2⟩
    rw [hrc] at hp
    simp only at hp
    rcases hum : b2.unmakeMove Z m.x m.y with ⟨ok2, b3⟩
    rw [hum] at hp
    simp only at hp
    rcases hrr : rescoreRoots Z clk depth my rest b3 s2 with ⟨scored, b4, s4⟩
    rw [hrr] at hp
    simp only at hp
    rcases List.mem_cons.mp hp with h | h
    · subst h
      exact List.mem_cons_self ..
    · have := ih b3 s2 p
      rw [hrr] at this
      exact List.mem_cons_of_mem _ (this h)

theorem idLoop_board {Z : Zobrist} {clk : Nat → Bool} {my : Player} :
    ∀ (fuel depth : Nat) (roots : List Move) (bm : Move) (bv : Int) (b : Board) (s : Eng),
      b.Wf → (∀ m ∈ roots, inRange m.x m.y = true ∧ b.isOccupied m.x m.y = false) →
      (idLoop Z clk my fuel depth roots bm bv b s).2.1 = b := by
  intro fuel
  induction fuel with
  | zero => intro depth roots bm bv b s _ _; rfl
  | succ fuel ih =>
    intro depth roots bm bv b s hwf hms
    unfold idLoop
    rcases pollTime clk s with ⟨t, s1⟩
    rcases t
    · simp only [Bool.false_eq_true, if_false]
      have hsw := @rootSweep_board Z clk depth my
        roots (roots.headD ⟨-1, -1⟩) INT_MIN b { s1 with maxDepthReached := depth }
        hwf hms
      rcases hswe : rootSweep Z clk depth my roots (roots.headD ⟨-1, -1⟩) INT_MIN b
          { s1 with maxDepthReached := depth } with ⟨out, bS, sS⟩
      rw [hswe] at hsw
      simp only at hsw
      rcases out with m | ⟨curBest, curVal⟩
      · exact hsw
      · simp only
        rcases pollTime clk sS with ⟨t2, s2⟩
        simp only
        rcases t2
        · rw [if_pos rfl]
          rw [hsw]
          have hrs := @rescoreRoots_board Z clk depth my roots b s2 hwf hms
          rcases hrr : rescoreRoots Z clk depth my roots b s2 with ⟨scored, b2, s3⟩
          simp only
          rw [hrr] at hrs
          simp only at hrs
          rw [hrs]
          refine ih (depth + 1) _ curBest curVal b s3 hwf ?_
          intro m' hm'
          obtain ⟨p, hp, hpe⟩ := List.mem_map.mp hm'
          have hp2 : p ∈ scored := (List.perm_insertionSort _ _).mem_iff.mp hp
          have hp3 := @rescoreRoots_mem Z clk depth my roots b s2 p
          rw [hrr] at hp3
          have hmem := hp3 hp2
          rw [hpe] at hmem
          exact hms m' hmem
        · rw [if_neg (by simp)]
          exact hsw
    · simp only [if_true]

theorem findBestMove_board (Z : Zobrist) (b : Board) (my : Player) (deadline : Nat)
    (hwf : b.Wf) : (findBestMove Z b my deadline).2.1 = b := by
  unfold findBestMove
  split
  · rfl
  · simp only
    split
    · rfl
    · split
      · -- forced block of the opponent's winning cells
        set ws := b.getLegalMoves.filter fun m => isWinningMove b my.flip m.x m.y with hws
        have hbf := blockFold_board (Z := Z) (b := b) my hwf ws
          (fun m hm => getLegalMoves_spec (List.mem_filter.mp hm).1)
          (ws.headD ⟨-1, -1⟩) INT_MIN
        rcases hfold : List.foldl (blockStep Z my) (ws.headD ⟨-1, -1⟩, INT_MIN, b) ws
          with ⟨bb, v, b2⟩
        rw [hfold] at hbf
        simp only at hbf
        exact hbf
      · split
        · rfl
        · rcases hom : orderMoves Z b my my 0 freshEng with ⟨roots, b2⟩
          simp only
          have hb2 : b2 = b := by
            have := orderMoves_board (Z := Z) my my 0 freshEng hwf
            rw [hom] at this
            exact this
          split
          · exact hb2
          · rw [hb2]
            refine idLoop_board (deadline + 1) 1 roots ⟨-1, -1⟩ INT_MIN b freshEng hwf ?_
            intro m hm
            have hmm : m ∈ (orderMoves Z b my my 0 freshEng).1 := by
              rw [hom]
              exact hm
            exact getCandidateMoves_spec (orderMoves_subset hmm)

/-- C8: the search never leaves a probe move on the board: for every
well-formed position, every `alphaBeta` call (at any depth, window,
players, ply and engine state, under any clock) returns the board exactly
as it received it, and so does every `findBestMove` call, on every path
including the time-expiry exits. -/
theorem claim_C8 (Z : Zobrist) (b : Board) (hwf : b.Wf) :
    (∀ (clk : Nat → Bool) (depth : Nat) (al be : Int) (cur my : Player) (ply : Nat)
      (s : Eng), (alphaBeta Z clk depth b al be cur my ply s).2.1 = b) ∧
    (∀ (my : Player) (deadline : Nat), (findBestMove Z b my deadline).2.1 = b) :=
  ⟨fun clk depth al be cur my ply s => alphaBeta_board depth b al be cur my ply s hwf,
   fun my deadline => findBestMove_board Z b my deadline hwf⟩

theorem claim_C8_witness :
    boardB5.Wf ∧
    (findBestMove Z0 boardB5 .Black 1).2.1 = boardB5 :=
  ⟨by decide, (claim_C8 Z0 boardB5 (by decide)).2 .Black 1⟩

/-- C7: the transposition probe of `alphaBeta` uses an entry only when its
stored depth is at least the current depth; an exact entry's score is
returned outright; a lower-bound entry raises `alpha` to its score when
stronger and an upper-bound entry lowers `beta` when stronger, and a
degenerate window after tightening returns the stored score without
expanding the node; the store step after the move loop skips the store on
the mid-loop timeout, and otherwise records (depth, value, flag, best
move) at the node's key — overwriting any prior entry there and leaving
every other key unchanged — with the flag classified against the pre-loop
window: upper bound at or below it, lower bound at or above it, exact
strictly inside. -/
theorem claim_C7 (depth : Nat) (al be : Int) (e : TTEntry) (key dp : Nat)
    (aO bO bv : Int) (bm : Move) (b : Board) (s : Eng) :
    (ttProbe depth al be none = (none, al, be)) ∧
    (e.depth < depth → ttProbe depth al be (some e) = (none, al, be)) ∧
    (depth ≤ e.depth → e.flag = 0 →
      ttProbe depth al be (some e) = (some e.score, al, be)) ∧
    (depth ≤ e.depth → e.flag = 1 →
      ttProbe depth al be (some e) =
        (if be ≤ max al e.score then some e.score else none, max al e.score, be)) ∧
    (depth ≤ e.depth → e.flag = 2 →
      ttProbe depth al be (some e) =
        (if min be e.score ≤ al then some e.score else none, al, min be e.score)) ∧
    ((abStore key dp aO bO (.timeout0, b, s)).2.2.transTable = s.transTable) ∧
    ((abStore key dp aO bO (.fin bv bm, b, s)).2.2.transTable key =
      some ⟨dp, bv, ttFlagOf bv aO bO, bm⟩) ∧
    (∀ k, k ≠ key →
      (abStore key dp aO bO (.fin bv bm, b, s)).2.2.transTable k = s.transTable k) ∧
    (bv ≤ aO → ttFlagOf bv aO bO = 2) ∧
    (aO < bv → bO ≤ bv → ttFlagOf bv aO bO = 1) ∧
    (aO < bv → bv < bO → ttFlagOf bv aO bO = 0) := by
  refine ⟨rfl, ?_, ?_, ?_, ?_, rfl, ?_, ?_, ?_, ?_, ?_⟩
  · intro hd
    unfold ttProbe
    simp only
    rw [if_neg (by omega)]
  · intro hd hf
    unfold ttProbe
    simp only
    rw [if_pos hd, if_pos hf]
  · intro hd hf
    unfold ttProbe
    simp only
    rw [if_pos hd, if_neg (by omega)]
    rcases le_or_lt e.score al with h | h
    · simp [hf, not_lt.mpr h, max_eq_left h]
      split <;> rfl
    · simp [hf, h, max_eq_right (le_of_lt h)]
      split <;> rfl
  · intro hd hf
    unfold ttProbe
    simp only
    rw [if_pos hd, if_neg (by omega)]
    rcases le_or_lt be e.score with h | h
    · simp [hf, not_lt.mpr h, min_eq_left h]
      split <;> rfl
    · simp [hf, h, min_eq_right (le_of_lt h)]
      split <;> rfl
  · unfold abStore
    simp
  · intro k hk
    unfold abStore
    simp only [if_neg hk]
  · intro h
    unfold ttFlagOf
    rw [if_pos h]
  · intro h1 h2
    unfold ttFlagOf
    rw [if_neg (by omega), if_pos h2]
  · intro h1 h2
    unfold ttFlagOf
    rw [if_neg (by omega), if_neg (by omega)]

theorem claim_C7_witness :
    ((1 : Nat) ≤ (2 : Nat)) ∧
    ttProbe 1 0 10 (some ⟨2, 5, 1, ⟨0, 0⟩⟩) = (none, 5, 10) := by
  refine ⟨by decide, ?_⟩
  have h := (claim_C7 1 0 10 ⟨2, 5, 1, ⟨0, 0⟩⟩ 0 1 0 10 5 ⟨0, 0⟩ boardB5
    freshEng).2.2.2.1 (by decide) rfl
  rw [h]
  norm_num

/-! ## Result-move helpers for claims C1 and C2 -/

theorem headD_mem_of_ne_nil {A : Type} {l : List A} (h : l ≠ []) (d : A) :
    l.headD d ∈ l := by
  cases l with
  | nil => exact absurd rfl h
  | cons a t => exact List.mem_cons_self ..

theorem getOpeningMove_spec {b : Board} {my : Player} {m : Move}
    (h : getOpeningMove b my = some m) :
    inRange m.x m.y = true ∧ b.isOccupied m.x m.y = false := by
  unfold getOpeningMove at h
  simp only at h
  by_cases h1 : b.countStones .Black + b.countStones .White = 4 ∧ b.side_to_move = my
  · rw [if_pos h1] at h
    by_cases h2 : my = .Black
    · rw [if_pos h2] at h
      have hp := List.find?_some h
      have hm := List.mem_of_find?_eq_some h
      simp only at hp
      rw [Bool.not_eq_true'] at hp
      refine ⟨?_, hp⟩
      simp only [List.mem_cons, List.not_mem_nil, or_false] at hm
      rcases hm with rfl | rfl | rfl | rfl <;> decide
    · rw [if_neg h2] at h
      cases h
  · rw [if_neg h1] at h
    cases h

theorem findBlockingMoves_spec {b : Board} {my : Player} {t : ThreatMove}
    (ht : t ∈ findBlockingMoves b my) :
    inRange t.move.x t.move.y = true ∧ b.isOccupied t.move.x t.move.y = false := by
  obtain ⟨mv, sev⟩ := t
  have h := (mem_findBlockingMoves_iff b my mv sev).mp ht
  have hr := nominates_inRange h.1
  have he := nominates_empty h.1
  exact ⟨hr, (Board.isOccupied_false_iff hr).mpr he⟩

theorem blockFold_mem {Z : Zobrist} {my : Player} :
    ∀ (ws : List Move) (bb : Move) (v : Int) (b : Board),
      (ws.foldl (blockStep Z my) (bb, v, b)).1 = bb ∨
      (ws.foldl (blockStep Z my) (bb, v, b)).1 ∈ ws := by
  intro ws
  induction ws with
  | nil => intro bb v b; exact Or.inl rfl
  | cons m rest ih =>
    intro bb v b
    rw [List.foldl_cons]
    have hstep : (blockStep Z my (bb, v, b) m).1 = bb ∨
        (blockStep Z my (bb, v, b) m).1 = m := by
      unfold blockStep
      simp only
      rcases b.makeMove Z m.x m.y with ⟨ok, b1⟩
      simp only
      rcases hum : b1.unmakeMove Z m.x m.y with ⟨ok2, b2⟩
      split
      · exact Or.inr rfl
      · exact Or.inl rfl
    rcases hf : blockStep Z my (bb, v, b) m with ⟨bb2, v2, b2⟩
    rw [hf] at hstep
    simp only at hstep
    rcases ih bb2 v2 b2 with h | h
    · rw [h]
      rcases hstep with h2 | h2
      · exact Or.inl h2
      · rw [h2]
        exact Or.inr (List.mem_cons_self ..)
    · exact Or.inr (List.mem_cons_of_mem _ h)

theorem orderFold_length {Z : Zobrist} {cur opp my : Player} {ply : Nat} {s : Eng}
    {dl : SevMap} :
    ∀ (ms : List Move) (a : List (Int × Move)) (b : Board),
      (ms.foldl (orderStep Z cur opp my ply s dl) (a, b)).1.length = a.length + ms.length := by
  intro ms
  induction ms with
  | nil => intro a b; simp
  | cons m rest ih =>
    intro a b
    rw [List.foldl_cons]
    obtain ⟨v, hv⟩ := orderStep_fst Z cur opp my ply s dl a b m
    rcases hf : orderStep Z cur opp my ply s dl (a, b) m with ⟨a2, b2⟩
    rw [hf] at hv
    simp only at hv
    subst hv
    rw [ih]
    simp
    omega

theorem orderMoves_fst_length {Z : Zobrist} {b : Board} {cur my : Player} {ply : Nat}
    {s : Eng} :
    (orderMoves Z b cur my ply s).1.length = b.getCandidateMoves.length := by
  unfold orderMoves
  simp only
  rcases hf : List.foldl (orderStep Z cur cur.flip my ply s (defensiveLookupOf b cur))
      ([], b) b.getCandidateMoves with ⟨scored, b2⟩
  simp only [hf]
  have := @orderFold_length Z cur cur.flip my ply s
    (defensiveLookupOf b cur) b.getCandidateMoves [] b
  rw [hf] at this
  simp only at this
  rw [List.length_map, (List.perm_insertionSort _ _).length_eq, this]
  simp

theorem pollTime_deadline0 (s : Eng) :
    pollTime (fun n => decide ((0 : Nat) ≤ n)) s = (true, { s with polls := s.polls + 1 }) := by
  unfold pollTime
  simp

theorem rootSweep_res {Z : Zobrist} {clk : Nat → Bool} {depth : Nat} {my : Player}
    (P : Move → Prop) :
    ∀ (ms : List Move) (curBest : Move) (curVal : Int) (b : Board) (s : Eng),
      b.Wf → (∀ m ∈ ms, inRange m.x m.y = true ∧ b.isOccupied m.x m.y = false) →
      (∀ m ∈ ms, P m) → P curBest →
      (∀ m, (rootSweep Z clk depth my ms curBest curVal b s).1 = .earlyWin m → P m) ∧
      (∀ cb cv, (rootSweep Z clk depth my ms curBest curVal b s).1 = .swept cb cv → P cb) := by
  intro ms
  induction ms with
  | nil =>
    intro curBest curVal b s _ _ _ hP
    refine ⟨fun m hm => ?_, fun cb cv hcb => ?_⟩
    · cases hm
    · unfold rootSweep at hcb
      injection hcb with h1 h2
      rw [← h1]
      exact hP
  | cons m rest ih =>
    intro curBest curVal b s hwf hms hPm hP
    obtain ⟨hr, ho⟩ := hms m (List.mem_cons_self ..)
    unfold rootSweep
    rcases pollTime clk s with ⟨t, s1⟩
    simp only
    rcases t
    · simp only [Bool.false_eq_true, if_false]
      rcases hmk : b.makeMove Z m.x m.y with ⟨ok, b1⟩
      simp only
      have hwf1 : b1.Wf := by
        have := Board.Wf_makeMove (Z := Z) (b := b) m.x m.y hwf
        rw [hmk] at this
        exact this
      rcases hrc : alphaBeta Z clk (depth - 1) b1 (INT_MIN + 1) (INT_MAX - 1)
          my.flip my 1 s1 with ⟨val, b2, s2⟩
      simp only
      have hb2 : b2 = b1 := by
        have := @alphaBeta_board Z clk (depth - 1) b1 (INT_MIN + 1)
          (INT_MAX - 1) my.flip my 1 s1 hwf1
        rw [hrc] at this
        exact this
      subst hb2
      have hun := Board.unmake_make (Z := Z) hwf hr ho
      rw [hmk] at hun
      simp only at hun
      rcases hum : b2.unmakeMove Z m.x m.y with ⟨ok2, b3⟩
      simp only
      rw [hum] at hun
      simp only [Prod.mk.injEq] at hun
      rcases hun with ⟨hok2, hb3⟩
      subst hb3
      rcases pollTime clk s2 with ⟨t2, s3⟩
      simp only
      rcases t2
      · simp only [Bool.false_eq_true, if_false]
        split
        · refine ⟨fun m' hm' => ?_, fun cb cv hcb => ?_⟩
          · injection hm' with h1
            rw [← h1]
            exact hPm m (List.mem_cons_self ..)
          · cases hcb
        · split
          · exact ih m val b3 s3 hwf
              (fun m' hm' => hms m' (List.mem_cons_of_mem _ hm'))
              (fun m' hm' => hPm m' (List.mem_cons_of_mem _ hm'))
              (hPm m (List.mem_cons_self ..))
          · exact ih curBest curVal b3 s3 hwf
              (fun m' hm' => hms m' (List.mem_cons_of_mem _ hm'))
              (fun m' hm' => hPm m' (List.mem_cons_of_mem _ hm'))
              hP
      · simp only [if_true]
        refine ⟨fun m' hm' => ?_, fun cb cv hcb => ?_⟩
        · cases hm'
        · injection hcb with h1 h2
          rw [← h1]
          exact hP
    · simp only [if_true]
      refine ⟨fun m' hm' => ?_, fun cb cv hcb => ?_⟩
      · cases hm'
      · injection hcb with h1 h2
        rw [← h1]
        exact hP

theorem idLoop_res {Z : Zobrist} {clk : Nat → Bool} {my : Player} (P : Move → Prop) :
    ∀ (fuel depth : Nat) (roots : List Move) (bm : Move) (bv : Int) (b : Board) (s : Eng),
      b.Wf →
      (∀ m ∈ roots, (inRange m.x m.y = true ∧ b.isOccupied m.x m.y = false) ∧ P m) →
      (bm = ⟨-1, -1⟩ ∨ P bm) →
      ((idLoop Z clk my fuel depth roots bm bv b s).1 = ⟨-1, -1⟩ ∨
        P (idLoop Z clk my fuel depth roots bm bv b s).1) := by
  intro fuel
  induction fuel with
  | zero => intro depth roots bm bv b s _ _ hbm; exact hbm
  | succ fuel ih =>
    intro depth roots bm bv b s hwf hms hbm
    unfold idLoop
    rcases pollTime clk s with ⟨t, s1⟩
    rcases t
    · simp only [Bool.false_eq_true, if_false]
      have hcond : ∀ m ∈ roots, inRange m.x m.y = true ∧ b.isOccupied m.x m.y = false :=
        fun m hm => (hms m hm).1
      have hPm : ∀ m ∈ roots, m = ⟨-1, -1⟩ ∨ P m :=
        fun m hm => Or.inr (hms m hm).2
      have hPh : roots.headD ⟨-1, -1⟩ = ⟨-1, -1⟩ ∨ P (roots.headD ⟨-1, -1⟩) := by
        cases roots with
        | nil => exact Or.inl rfl
        | cons a t => exact Or.inr (hms a (List.mem_cons_self ..)).2
      have hres := @rootSweep_res Z clk depth my (fun m => m = ⟨-1, -1⟩ ∨ P m)
        roots (roots.headD ⟨-1, -1⟩) INT_MIN b { s1 with maxDepthReached := depth }
        hwf hcond hPm hPh
      have hsw := @rootSweep_board Z clk depth my
        roots (roots.headD ⟨-1, -1⟩) INT_MIN b { s1 with maxDepthReached := depth }
        hwf hcond
      rcases hswe : rootSweep Z clk depth my roots (roots.headD ⟨-1, -1⟩) INT_MIN b
          { s1 with maxDepthReached := depth } with ⟨out, bS, sS⟩
      rw [hswe] at hsw hres
      simp only at hsw hres
      rcases out with m | ⟨curBest, curVal⟩
      · exact hres.1 m rfl
      · simp only
        rcases pollTime clk sS with ⟨t2, s2⟩
        simp only
        rcases t2
        · rw [if_pos rfl]
          have hcb := hres.2 curBest curVal rfl
          have hrs := @rescoreRoots_board Z clk depth my roots bS s2 (hsw ▸ hwf)
            (hsw ▸ hcond)
          rcases hrr : rescoreRoots Z clk depth my roots bS s2 with ⟨scored, b2, s3⟩
          simp only
          rw [hrr] at hrs
          simp only at hrs
          have hb2 : b2 = b := by rw [hrs, hsw]
          rw [hb2]
          refine ih (depth + 1) _ curBest curVal b s3 hwf ?_ hcb
          intro m' hm'
          obtain ⟨p, hp, hpe⟩ := List.mem_map.mp hm'
          have hp2 : p ∈ scored := (List.perm_insertionSort _ _).mem_iff.mp hp
          have hp3 := @rescoreRoots_mem Z clk depth my roots bS s2 p
          rw [hrr] at hp3
          have hmem := hp3 hp2
          rw [hpe] at hmem
          exact hms m' hmem
        · rw [if_neg (by simp)]
          exact hbm
    · simp only [if_true]
      exact hbm

theorem findBestMove_ok (Z : Zobrist) (b : Board) (my : Player) (deadline : Nat)
    (hwf : b.Wf) :
    (findBestMove Z b my deadline).1 = ⟨-1, -1⟩ ∨
      (inRange (findBestMove Z b my deadline).1.x (findBestMove Z b my deadline).1.y = true ∧
        b.isOccupied (findBestMove Z b my deadline).1.x (findBestMove Z b my deadline).1.y
          = false) := by
  unfold findBestMove
  split
  · rename_i bm hop
    right
    exact getOpeningMove_spec hop
  · rename_i hop
    simp only
    split
    · rename_i m hwn
      right
      exact getLegalMoves_spec (List.mem_of_find?_eq_some hwn)
    · rename_i hwn
      split
      · rename_i hemp
        set ws := b.getLegalMoves.filter fun m => isWinningMove b my.flip m.x m.y with hws
        have hne : ws ≠ [] := by
          intro hnil
          rw [hnil] at hemp
          simp at hemp
        have hmm : (List.foldl (blockStep Z my) (ws.headD ⟨-1, -1⟩, INT_MIN, b) ws).1 ∈ ws := by
          rcases @blockFold_mem Z my ws (ws.headD ⟨-1, -1⟩) INT_MIN b with h | h
          · rw [h]
            exact headD_mem_of_ne_nil hne _
          · exact h
        right
        exact getLegalMoves_spec (List.mem_filter.mp hmm).1
      · rename_i hemp
        split
        · rename_i m hurg
          right
          unfold urgentOf at hurg
          rcases hdd : findBlockingMoves b my with _ | ⟨front, rest⟩
          · rw [hdd] at hurg
            cases hurg
          · rw [hdd] at hurg
            simp only at hurg
            split at hurg
            · injection hurg with h1
              rw [← h1]
              have hf : front ∈ findBlockingMoves b my := by
                rw [hdd]
                exact List.mem_cons_self ..
              exact findBlockingMoves_spec hf
            · cases hurg
        · rename_i hurg
          split
          · exact Or.inl rfl
          · have hb2 := orderMoves_board (Z := Z) my my 0 freshEng hwf
            rw [hb2]
            refine idLoop_res
              (fun m => inRange m.x m.y = true ∧ b.isOccupied m.x m.y = false)
              (deadline + 1) 1 ((orderMoves Z b my my 0 freshEng).1) ⟨-1, -1⟩ INT_MIN b
              freshEng hwf ?_ (Or.inl rfl)
            intro m' hm'
            have hsp := getCandidateMoves_spec (orderMoves_subset hm')
            exact ⟨hsp, hsp⟩

theorem idLoop_deadline0 (Z : Zobrist) (my : Player) (fuel depth : Nat) (roots : List Move)
    (bm : Move) (bv : Int) (b : Board) (s : Eng) :
    (idLoop Z (fun n => decide ((0 : Nat) ≤ n)) my (fuel + 1) depth roots bm bv b s).1
      = bm := by
  unfold idLoop
  rw [pollTime_deadline0]
  simp

theorem findBestMove_empty (Z : Zobrist) (b : Board) (my : Player) (deadline : Nat)
    (h1 : getOpeningMove b my = none)
    (h2 : b.getLegalMoves = [])
    (h4 : urgentOf b my = none)
    (h5 : b.getCandidateMoves = []) :
    (findBestMove Z b my deadline).1 = ⟨-1, -1⟩ := by
  have hroots : (orderMoves Z b my my 0 freshEng).1 = [] := by
    have hlen := @orderMoves_fst_length Z b my my 0 freshEng
    rw [h5] at hlen
    simp at hlen
    exact hlen
  unfold findBestMove
  simp [h1, h2, h4, hroots]

theorem findBestMove_no_shortcut (Z : Zobrist) (b : Board) (my : Player) (deadline : Nat)
    (h1 : getOpeningMove b my = none)
    (h2 : b.getLegalMoves.find? (fun m => isWinningMove b my m.x m.y) = none)
    (h3 : (b.getLegalMoves.filter fun m => isWinningMove b my.flip m.x m.y).isEmpty = true)
    (h4 : urgentOf b my = none)
    (hwf : b.Wf) :
    (findBestMove Z b my deadline).1 = ⟨-1, -1⟩ ∨
      (findBestMove Z b my deadline).1 ∈ rootMovesOf Z b my := by
  unfold findBestMove
  simp only [h1, h2, h3, h4, Bool.true_eq_false, if_false]
  split
  · exact Or.inl rfl
  · have hb2 := orderMoves_board (Z := Z) my my 0 freshEng hwf
    rw [hb2]
    refine idLoop_res (fun m => m ∈ rootMovesOf Z b my)
      (deadline + 1) 1 ((orderMoves Z b my my 0 freshEng).1) ⟨-1, -1⟩ INT_MIN b
      freshEng hwf ?_ (Or.inl rfl)
    intro m' hm'
    exact ⟨getCandidateMoves_spec (orderMoves_subset hm'), hm'⟩

theorem findBestMove_deadline0 (Z : Zobrist) (b : Board) (my : Player)
    (h1 : getOpeningMove b my = none)
    (h2 : b.getLegalMoves.find? (fun m => isWinningMove b my m.x m.y) = none)
    (h3 : (b.getLegalMoves.filter fun m => isWinningMove b my.flip m.x m.y).isEmpty = true)
    (h4 : urgentOf b my = none) :
    (findBestMove Z b my 0).1 = ⟨-1, -1⟩ := by
  unfold findBestMove
  simp only [h1, h2, h3, h4, Bool.true_eq_false, if_false]
  split
  · rfl
  · rw [idLoop_deadline0]

/-- C1, amended.  The original claim — `findBestMove` always returns an
in-range empty cell on reachable positions with a positive budget — is
false: on a full board every stage runs out of moves and the sentinel
`(-1,-1)` is returned (see `claim_C1_counterexample`).  What holds is:
on every well-formed position the returned move is either the sentinel
`(-1,-1)` or an in-range cell that is empty on the input board. -/
theorem claim_C1 (Z : Zobrist) (b : Board) (my : Player) (deadline : Nat) (hwf : b.Wf) :
    (findBestMove Z b my deadline).1 = ⟨-1, -1⟩ ∨
      (inRange (findBestMove Z b my deadline).1.x (findBestMove Z b my deadline).1.y = true ∧
        b.isOccupied (findBestMove Z b my deadline).1.x (findBestMove Z b my deadline).1.y
          = false) :=
  findBestMove_ok Z b my deadline hwf

/-- Counterexample to the original claim C1: the full board is reachable
from the initial position by legal moves, the time budget is positive,
and `findBestMove` returns `(-1,-1)`, which is out of range. -/
theorem claim_C1_counterexample :
    Reachable Z0 fullBoard ∧ 0 < 1000000 ∧
    (findBestMove Z0 fullBoard .Black 1000000).1 = ⟨-1, -1⟩ ∧
    inRange (-1 : Int) (-1 : Int) = false := by
  refine ⟨⟨fillMoves, by decide⟩, by norm_num, ?_, by decide⟩
  exact findBestMove_empty Z0 fullBoard .Black 1000000 (by decide) (by decide) (by decide)
    (by decide)

theorem claim_C1_witness :
    boardB5.Wf ∧
    ((findBestMove Z0 boardB5 .Black 5).1 = ⟨-1, -1⟩ ∨
      (inRange (findBestMove Z0 boardB5 .Black 5).1.x
          (findBestMove Z0 boardB5 .Black 5).1.y = true ∧
        boardB5.isOccupied (findBestMove Z0 boardB5 .Black 5).1.x
          (findBestMove Z0 boardB5 .Black 5).1.y = false)) :=
  ⟨by decide, claim_C1 Z0 boardB5 .Black 5 (by decide)⟩

/-- C2, amended.  The original claim — if the deepening loop ends with no
depth completed and no shortcut fired, `findBestMove` falls back to the
front of the ordered root move list — is false: in that situation the
sentinel `(-1,-1)` is returned instead (see `claim_C2_counterexample`).
What holds is: with the budget already expired (poll deadline 0) and no
shortcut firing, `findBestMove` returns the sentinel; and for every
budget, the returned move is either the sentinel or one of the ordered
root moves the deepening loop actually searched. -/
theorem claim_C2 (Z : Zobrist) (b : Board) (my : Player)
    (h1 : getOpeningMove b my = none)
    (h2 : b.getLegalMoves.find? (fun m => isWinningMove b my m.x m.y) = none)
    (h3 : (b.getLegalMoves.filter fun m => isWinningMove b my.flip m.x m.y).isEmpty = true)
    (h4 : urgentOf b my = none)
    (hwf : b.Wf) :
    ((findBestMove Z b my 0).1 = ⟨-1, -1⟩) ∧
    ∀ deadline, (findBestMove Z b my deadline).1 = ⟨-1, -1⟩ ∨
      (findBestMove Z b my deadline).1 ∈ rootMovesOf Z b my :=
  ⟨findBestMove_deadline0 Z b my h1 h2 h3 h4,
   fun deadline => findBestMove_no_shortcut Z b my deadline h1 h2 h3 h4 hwf⟩

/-- Counterexample to the original claim C2: after 1. (5,4) with Black to
move and an expired budget, no shortcut fires, the ordered root move list
is nonempty, yet `findBestMove` returns the sentinel `(-1,-1)` and not
the front of the root list. -/
theorem claim_C2_counterexample :
    getOpeningMove boardB5 .Black = none ∧
    boardB5.getLegalMoves.find? (fun m => isWinningMove boardB5 .Black m.x m.y) = none ∧
    (boardB5.getLegalMoves.filter fun m =>
      isWinningMove boardB5 Player.Black.flip m.x m.y).isEmpty = true ∧
    urgentOf boardB5 .Black = none ∧
    rootMovesOf Z0 boardB5 .Black ≠ [] ∧
    (findBestMove Z0 boardB5 .Black 0).1 ≠
      (rootMovesOf Z0 boardB5 .Black).headD ⟨-1, -1⟩ := by
  have hcand : boardB5.getCandidateMoves ≠ [] := by decide
  have hne : rootMovesOf Z0 boardB5 .Black ≠ [] := by
    intro hnil
    have hlen := @orderMoves_fst_length Z0 boardB5 .Black .Black 0 freshEng
    unfold rootMovesOf at hnil
    have hzero : boardB5.getCandidateMoves.length = 0 := by
      rw [← hlen, hnil]
      rfl
    exact hcand (List.eq_nil_of_length_eq_zero hzero)
  have hmemh : (rootMovesOf Z0 boardB5 .Black).headD ⟨-1, -1⟩ ∈
      (orderMoves Z0 boardB5 .Black .Black 0 freshEng).1 :=
    headD_mem_of_ne_nil hne _
  have hinr := (getCandidateMoves_spec (orderMoves_subset hmemh)).1
  have hhead : (rootMovesOf Z0 boardB5 .Black).headD ⟨-1, -1⟩ ≠ ⟨-1, -1⟩ := by
    intro heq
    rw [heq] at hinr
    exact absurd hinr (by decide)
  have hfbm : (findBestMove Z0 boardB5 .Black 0).1 = ⟨-1, -1⟩ :=
    findBestMove_deadline0 Z0 boardB5 .Black (by decide) (by decide) (by decide) (by decide)
  refine ⟨by decide, by decide, by decide, by decide, hne, ?_⟩
  rw [hfbm]
  exact fun heq => hhead heq.symm

theorem claim_C2_witness :
    (getOpeningMove boardB5 .Black = none ∧
     boardB5.getLegalMoves.find? (fun m => isWinningMove boardB5 .Black m.x m.y) = none ∧
     (boardB5.getLegalMoves.filter fun m =>
       isWinningMove boardB5 Player.Black.flip m.x m.y).isEmpty = true ∧
     urgentOf boardB5 .Black = none ∧ boardB5.Wf) ∧
    (findBestMove Z0 boardB5 .Black 0).1 = ⟨-1, -1⟩ :=
  ⟨⟨by decide, by decide, by decide, by decide, by decide⟩,
   (claim_C2 Z0 boardB5 .Black (by decide) (by decide) (by decide) (by decide) (by decide)).1⟩
